import Mathlib

/-!
Verification of the `nextjs-svgsprite` build pipeline and runtime loader.

Strings from the JavaScript/TypeScript sources are modelled as `List Char`.
Each definition in this file is a shallow embedding of the correspondingly
named function of the repository (chiefly `scripts/build-sprite.js` and
`lib/sprite-loader.ts`); doc comments name the source location.
-/

/-- The set of characters matched by the JavaScript regex class `\s`
(whitespace, as used by `/\s+/g` and `/\s/g` in `normalizeIconName`). -/
def jsWhitespace (c : Char) : Bool :=
  let n := c.toNat
  n = 9 || n = 10 || n = 11 || n = 12 || n = 13 || n = 32 ||
  n = 0xa0 || n = 0x1680 || (0x2000 ≤ n && n ≤ 0x200a) ||
  n = 0x2028 || n = 0x2029 || n = 0x202f || n = 0x205f || n = 0x3000 || n = 0xfeff

/-- Worker for `.replace(/\s+/g, ' ')`: a maximal run of whitespace becomes a
single space.  The flag records whether the previous character was whitespace
(i.e. whether we are inside a run whose space was already emitted). -/
def collapseWsGo : Bool → List Char → List Char
  | _, [] => []
  | pw, c :: t =>
    if jsWhitespace c then
      if pw then collapseWsGo true t else ' ' :: collapseWsGo true t
    else c :: collapseWsGo false t

/-- `.replace(/\s+/g, ' ')` from `normalizeIconName` (build-sprite.js:106). -/
def jsCollapseWs (l : List Char) : List Char := collapseWsGo false l

/-- `.replace(/\s/g, '-')` from `normalizeIconName` (build-sprite.js:108). -/
def jsWsToHyphen (l : List Char) : List Char :=
  l.map fun c => if jsWhitespace c then '-' else c

/-- The character class `[a-z0-9]` of the camel-case regex. -/
def isLowerDigit (c : Char) : Bool :=
  ('a' ≤ c && c ≤ 'z') || ('0' ≤ c && c ≤ '9')

/-- The character class `[A-Z]` of the camel-case regex. -/
def isUpperAscii (c : Char) : Bool := 'A' ≤ c && c ≤ 'Z'

/-- `.replace(/([a-z0-9])([A-Z])/g, '$1-$2')` (build-sprite.js:110): a global
left-to-right scan; after a match the scan resumes after the matched pair. -/
def camelSplit : List Char → List Char
  | [] => []
  | [a] => [a]
  | a :: b :: t =>
    if isLowerDigit a && isUpperAscii b then a :: '-' :: b :: camelSplit t
    else a :: camelSplit (b :: t)

/-- `.replace(/_/g, '-')` (build-sprite.js:112). -/
def jsUnderscoreToHyphen (l : List Char) : List Char :=
  l.map fun c => if c = '_' then '-' else c

/-- `.toLowerCase()` (build-sprite.js:114), modelled by its action on
ASCII characters (the only characters the surrounding claims concern). -/
def jsToLowerCase (l : List Char) : List Char := l.map Char.toLower

/-- Worker for `.replace of the global regex for hyphen runs with '-'`: a maximal run of hyphens becomes a
single hyphen. -/
def collapseHyGo : Bool → List Char → List Char
  | _, [] => []
  | ph, c :: t =>
    if c = '-' then
      if ph then collapseHyGo true t else '-' :: collapseHyGo true t
    else c :: collapseHyGo false t

/-- `.replace of the global regex for hyphen runs with '-'` from `normalizeIconName` (build-sprite.js:116). -/
def jsCollapseHyphens (l : List Char) : List Char := collapseHyGo false l

/-- Half of `.replace(/^-|-$/g, '')`: remove one leading hyphen. -/
def dropLeadingHyphen : List Char → List Char
  | '-' :: t => t
  | l => l

/-- Other half of `.replace(/^-|-$/g, '')`: remove one trailing hyphen. -/
def dropTrailingHyphen (l : List Char) : List Char :=
  if l.getLast? = some '-' then l.dropLast else l

/-- `.replace(/^-|-$/g, '')` (build-sprite.js:118): the global regex removes
exactly one hyphen at the start and exactly one at the end. -/
def jsStripEdgeHyphens (l : List Char) : List Char :=
  dropTrailingHyphen (dropLeadingHyphen l)

/-- The seven-step transformation pipeline inside `normalizeIconName`
(build-sprite.js:103-119), applied to any non-empty name.  The identical
pipeline appears in `lib/utils` (src/unnamed/part_008) driven by the
`NORMALIZATION_PATTERNS` table of `lib/config.ts`. -/
def normalizeBody (l : List Char) : List Char :=
  jsStripEdgeHyphens (jsCollapseHyphens (jsToLowerCase
    (jsUnderscoreToHyphen (camelSplit (jsWsToHyphen (jsCollapseWs l))))))

/-- The error message thrown by `normalizeIconName` for empty input. -/
def invalidNameMsg : List Char := "Icon name must be a non-empty string".data

/-- `normalizeIconName` (build-sprite.js:98-120): throws for the empty
string, otherwise returns the normalized kebab-case name. -/
def normalizeIconName (l : List Char) : Except (List Char) (List Char) :=
  if l.isEmpty then Except.error invalidNameMsg else Except.ok (normalizeBody l)

deriving instance DecidableEq for Except

/-! ### Generic ordered association lists (modelling JavaScript `Map`) -/

/-- Lookup in an insertion-ordered association list. -/
def findVal {K V : Type} [DecidableEq K] (k : K) : List (K × V) → Option V
  | [] => none
  | (k', v) :: t => if k' = k then some v else findVal k t

/-- `Map.set`-style update: replace the value at `k` via `f` if present,
else append `(k, v0)` at the end (JavaScript `Map` keeps insertion order). -/
def upsertWith {K V : Type} [DecidableEq K] (k : K) (f : V → V) (v0 : V) :
    List (K × V) → List (K × V)
  | [] => [(k, v0)]
  | (k', v) :: t => if k' = k then (k', f v) :: t else (k', v) :: upsertWith k f v0 t

/-- `Map.delete` / `Storage.removeItem`. -/
def eraseKey {K V : Type} [DecidableEq K] : List (K × V) → K → List (K × V)
  | [], _ => []
  | (k', v) :: t, k => if k' = k then eraseKey t k else (k', v) :: eraseKey t k

/-- `Set.delete`. -/
def eraseElem {K : Type} [DecidableEq K] : List K → K → List K
  | [], _ => []
  | k' :: t, k => if k' = k then eraseElem t k else k' :: eraseElem t k

/-- `Set.add`. -/
def addKeyOnce {K : Type} [DecidableEq K] (l : List K) (k : K) : List K :=
  if k ∈ l then l else l ++ [k]

/-- `Array.prototype.flatMap` / nested `forEach` pushes. -/
def listFlatMap {A B : Type} (f : A → List B) : List A → List B
  | [] => []
  | a :: t => f a ++ listFlatMap f t

/-! ### The tree scanner `getSvgFiles` (build-sprite.js:226-274) -/

/-- A directory tree: the scanner input.  Entry names carry no separators. -/
inductive FsEntry : Type where
  | file : List Char → FsEntry
  | dir : List Char → List FsEntry → FsEntry

/-- A path is the list of entry names from the scan root. -/
abbrev FsPath := List (List Char)

/-- The characters of the `.svg` extension. -/
def svgExt : List Char := ['.', 's', 'v', 'g']

/-- `startsWith` on character lists. -/
def startsWithSeq : List Char → List Char → Bool
  | [], _ => true
  | _ :: _, [] => false
  | p :: ps, c :: cs => p == c && startsWithSeq ps cs

/-- `endsWith` on character lists. -/
def endsWithSeq (pat l : List Char) : Bool := startsWithSeq pat.reverse l.reverse

/-- `entry.name.toLowerCase().endsWith('.svg')` (build-sprite.js:253). -/
def hasSvgExt (nm : List Char) : Bool := endsWithSeq svgExt (nm.map Char.toLower)

/-- `path.basename(name, '.svg')` on a bare file name: Node removes the
suffix case-sensitively, and only when the name is longer than the suffix. -/
def stripSvgExt (nm : List Char) : List Char :=
  if nm ≠ svgExt ∧ endsWithSeq svgExt nm = true then nm.take (nm.length - 4) else nm

/-- One scanned file, as produced by `getSvgFiles`:
`{ originalName, name, path }` (build-sprite.js:261-265). -/
structure SvgFile : Type where
  originalName : List Char
  name : List Char
  path : FsPath
deriving DecidableEq

/-- `getSvgFiles(dir, namespace, originalNamespace)` (build-sprite.js:226-274):
depth-first scan; each directory appends its normalized name to the colon-joined
namespace chain; each `.svg` file yields an entry whose `name` is the namespace
chain plus the normalized base name.  Entry names on a real filesystem are
non-empty, so the `normalizeIconName` guard cannot fire and the scanner is
modelled with the pipeline `normalizeBody` directly. -/
def scanDir : List FsEntry → List Char → List Char → FsPath → List SvgFile
  | [], _, _, _ => []
  | FsEntry.file nm :: rest, nsv, onsv, cur =>
    (if hasSvgExt nm then
      [{ originalName :=
           if onsv.isEmpty then stripSvgExt nm else onsv ++ '/' :: stripSvgExt nm,
         name :=
           if nsv.isEmpty then normalizeBody (stripSvgExt nm)
           else nsv ++ ':' :: normalizeBody (stripSvgExt nm),
         path := cur ++ [nm] }]
     else []) ++ scanDir rest nsv onsv cur
  | FsEntry.dir nm children :: rest, nsv, onsv, cur =>
    scanDir children
      (if nsv.isEmpty then normalizeBody nm else nsv ++ ':' :: normalizeBody nm)
      (if onsv.isEmpty then nm else onsv ++ '/' :: nm)
      (cur ++ [nm]) ++
    scanDir rest nsv onsv cur

/-- All paths present in the tree (files and directories), for the
`fs.existsSync` checks of the rename step. -/
def treePaths : List FsEntry → FsPath → List FsPath
  | [], _ => []
  | FsEntry.file nm :: rest, cur => (cur ++ [nm]) :: treePaths rest cur
  | FsEntry.dir nm children :: rest, cur =>
    (cur ++ [nm]) :: (treePaths children (cur ++ [nm]) ++ treePaths rest cur)

/-! ### Namespace extraction (shared by `checkForDuplicates` and
`groupByNamespace`, build-sprite.js:291-294 and 490-498) -/

/-- `DEFAULT_NAMESPACE` (build-sprite.js:72). -/
def defaultNs : List Char := "default".data

/-- `colonIndex = name.indexOf(':')`; namespace is the part before the first
colon when `colonIndex > 0`, else `'default'`; the icon id is the remainder. -/
def splitNsIcon (name : List Char) : List Char × List Char :=
  match name.findIdx? (fun c => c == ':') with
  | some i => if 0 < i then (name.take i, name.drop (i + 1)) else (defaultNs, name)
  | none => (defaultNs, name)

/-! ### `checkForDuplicates` (build-sprite.js:286-346) -/

/-- What `checkForDuplicates` pushes per file:
`{ originalName, fullName, path }` (build-sprite.js:306-310). -/
structure DupFile : Type where
  originalName : List Char
  fullName : List Char
  path : FsPath
deriving DecidableEq

def mkDupFile (f : SvgFile) : DupFile := ⟨f.originalName, f.name, f.path⟩

/-- Inner map update: `namespaceIcons.get(iconName).push(...)`. -/
def insertIconFile (m : List (List Char × List DupFile)) (icon : List Char)
    (d : DupFile) : List (List Char × List DupFile) :=
  upsertWith icon (fun l => l ++ [d]) [d] m

/-- Outer map update: `namespaceGroups.get(namespace)` then inner push. -/
def insertNsFile (g : List (List Char × List (List Char × List DupFile)))
    (ns icon : List Char) (d : DupFile) :
    List (List Char × List (List Char × List DupFile)) :=
  upsertWith ns (fun m => insertIconFile m icon d) (insertIconFile [] icon d) g

/-- The nested `namespaceGroups` map built by the first `forEach`. -/
def dupGroups (files : List SvgFile) :
    List (List Char × List (List Char × List DupFile)) :=
  files.foldl
    (fun g f => insertNsFile g (splitNsIcon f.name).1 (splitNsIcon f.name).2 (mkDupFile f)) []

/-- Lookup through both levels of the nested duplicate-detection map. -/
def innerFind (g : List (List Char × List (List Char × List DupFile)))
    (ns icon : List Char) : Option (List DupFile) :=
  findVal icon ((findVal ns g).getD [])

/-- One entry of `duplicatesFound` (build-sprite.js:319-323). -/
structure DupRec : Type where
  nsLabel : List Char
  iconName : List Char
  files : List (List Char)
deriving DecidableEq

/-- The namespace label used in the report. -/
def dupNsLabel (ns : List Char) : List Char :=
  if ns = defaultNs then "default (root level)".data else ns

/-- The `duplicatesFound` list: every `(namespace, iconName)` group with more
than one member, in map iteration order. -/
def duplicatesFound (files : List SvgFile) : List DupRec :=
  listFlatMap
    (fun g => (g.2.filter (fun x => decide (1 < x.2.length))).map
      (fun x => ⟨dupNsLabel g.1, x.1, x.2.map (fun d => d.originalName)⟩))
    (dupGroups files)

/-- `checkForDuplicates` (build-sprite.js:286-346): throws listing all
collisions when any `(namespace, iconName)` group has more than one member. -/
def checkForDuplicates (files : List SvgFile) : Except (List DupRec) Unit :=
  if (duplicatesFound files).isEmpty then Except.ok () else Except.error (duplicatesFound files)

/-! ### `renameFilesToKebabCase` (build-sprite.js:357-409) -/

/-- `file.name.lastIndexOf(':')` then `substring(lastColonIndex + 1)`:
the part of the name after the last colon (the whole name when there is
no colon). -/
def afterLastColon (l : List Char) : List Char :=
  (l.reverse.takeWhile (fun c => !(c == ':'))).reverse

/-- Remove a path from the modelled filesystem. -/
def removePath (fsp : List FsPath) (p : FsPath) : List FsPath :=
  fsp.filter (fun q => decide (q ≠ p))

/-- `renameFilesToKebabCase` (build-sprite.js:357-409), threading the set of
existing paths for the `fs.existsSync` check; `fs.renameSync` is modelled as
removing the old path and adding the new one (and cannot fail in the model).
Returns the updated file list and the updated filesystem. -/
def renameFilesToKebabCase : List SvgFile → List FsPath → List SvgFile × List FsPath
  | [], fsp => ([], fsp)
  | f :: rest, fsp =>
    let dir := f.path.dropLast
    let originalFileName := (f.path.getLast?).getD []
    let originalBaseName := stripSvgExt originalFileName
    let expectedBaseName := afterLastColon f.name
    let expectedFileName := expectedBaseName ++ svgExt
    if originalBaseName = expectedBaseName then
      let r := renameFilesToKebabCase rest fsp
      (f :: r.1, r.2)
    else
      let newPath := dir ++ [expectedFileName]
      if newPath ∈ fsp then
        let r := renameFilesToKebabCase rest fsp
        (f :: r.1, r.2)
      else
        let r := renameFilesToKebabCase rest (removePath fsp f.path ++ [newPath])
        ({ f with path := newPath } :: r.1, r.2)

/-! ### `groupByNamespace` (build-sprite.js:486-512) -/

/-- A grouped icon: the scanned file plus `iconName` (name without the
namespace part) and `fullName` (build-sprite.js:504-508). -/
structure GroupedIcon : Type where
  originalName : List Char
  name : List Char
  path : FsPath
  iconName : List Char
  fullName : List Char
deriving DecidableEq

def mkGrouped (f : SvgFile) : GroupedIcon :=
  ⟨f.originalName, f.name, f.path, (splitNsIcon f.name).2, f.name⟩

/-- `groupByNamespace` (build-sprite.js:486-512): a `Map` from namespace
(the part of the name before the first colon, else `'default'`) to the icons
pushed in encounter order. -/
def groupByNamespace (files : List SvgFile) : List (List Char × List GroupedIcon) :=
  files.foldl
    (fun g f => upsertWith (splitNsIcon f.name).1 (fun l => l ++ [mkGrouped f]) [mkGrouped f] g) []

/-- `allIconNames` as collected by the sprite-generation loop
(build-sprite.js:563-602): iterate the namespace groups, pushing each icon's
`fullName`. -/
def namesOfGroups (g : List (List Char × List GroupedIcon)) : List (List Char) :=
  listFlatMap (fun p => p.2.map (fun r => r.fullName)) g

/-- Output sprite file name per namespace (build-sprite.js:605-606). -/
def spriteFileName (ns : List Char) : List Char :=
  if ns = defaultNs then "icons-sprite.svg".data else "icons-".data ++ ns ++ ".svg".data

/-! ### `generateTypeDefinitions` (build-sprite.js:423-467) -/

/-- A single-quote character (used when quoting icon names). -/
def squote : Char := '\''

/-- A newline character. -/
def nlChar : Char := '\n'

/-- One line of the `IconName` union: two spaces, a bar, the quoted name. -/
def typeLineOf (n : List Char) : List Char := ' ' :: ' ' :: '|' :: ' ' :: squote :: (n ++ [squote])

/-- Join lines with newlines. -/
def joinLines : List (List Char) → List Char
  | [] => []
  | [x] => x
  | x :: rest => x ++ nlChar :: joinLines rest

/-- The body of the emitted `IconName` type: the quoted names joined by
newlines, or the single line `  never` when there are no icons
(build-sprite.js:425-426). -/
def typeLinesOf (names : List (List Char)) : List Char :=
  if names.isEmpty then "  never".data else joinLines (names.map typeLineOf)

/-- The body of the emitted `iconNames` array literal: each quoted name
followed by a comma except the last, joined by newlines; empty input gives
the empty string (build-sprite.js:428-433). -/
def iconNamesLinesOf : List (List Char) → List Char
  | [] => []
  | [n] => ' ' :: ' ' :: squote :: (n ++ [squote])
  | n :: rest => (' ' :: ' ' :: squote :: (n ++ [squote])) ++ ',' :: nlChar :: iconNamesLinesOf rest

/-- The two generated bodies of `icon-types.ts`. -/
structure TypeDef : Type where
  typeLines : List Char
  iconNamesLines : List Char
deriving DecidableEq

/-- `generateTypeDefinitions(iconNames)` (build-sprite.js:423-467), modelled
by the two interpolated bodies of the emitted file. -/
def generateTypeDefinitions (names : List (List Char)) : TypeDef :=
  ⟨typeLinesOf names, iconNamesLinesOf names⟩

/-! ### `buildSprite` (build-sprite.js:530-630) -/

/-- The outputs a successful build writes: the renamed source list, one
sprite file per namespace (file name and the symbol ids added to it), the
collected `allIconNames`, and the generated type bodies. -/
structure BuildOutput : Type where
  renamedFiles : List SvgFile
  sprites : List (List Char × List (List Char))
  typeNames : List (List Char)
  typeDefs : TypeDef
deriving DecidableEq

/-- `buildSprite` (build-sprite.js:530-630): scan, handle the empty case,
check duplicates (aborting with the report before anything is written),
rename sources, group by namespace, emit sprites and type definitions.
File contents are abstracted to the list of symbol ids per sprite. -/
def buildSprite (root : List FsEntry) : Except (List DupRec) BuildOutput :=
  let files := scanDir root [] [] []
  if files.isEmpty then
    Except.ok
      { renamedFiles := [],
        sprites := [("icons-sprite.svg".data, [])],
        typeNames := [],
        typeDefs := generateTypeDefinitions [] }
  else
    match checkForDuplicates files with
    | Except.error d => Except.error d
    | Except.ok _ =>
      let renamed := (renameFilesToKebabCase files (treePaths root [])).1
      let groups := groupByNamespace renamed
      let allIconNames := namesOfGroups groups
      Except.ok
        { renamedFiles := renamed,
          sprites := groups.map (fun g => (spriteFileName g.1, g.2.map (fun r => r.iconName))),
          typeNames := allIconNames,
          typeDefs := generateTypeDefinitions allIconNames }

/-! ### Well-formed icon names (the invariant of claim C6) -/

/-- Characters permitted in a normalized name segment: lowercase ASCII
letters, digits, hyphens. -/
def isOutChar (c : Char) : Bool :=
  ('a' ≤ c && c ≤ 'z') || ('0' ≤ c && c ≤ '9') || c == '-'

/-- Split a name on colons. -/
def splitColon : List Char → List (List Char)
  | [] => [[]]
  | c :: t =>
    match splitColon t with
    | [] => [[c]]
    | s :: rest => if c = ':' then [] :: s :: rest else (c :: s) :: rest

/-- The spec invariant on a produced `normalizedName`: non-empty; only
lowercase letters, digits, hyphens and colons; no leading or trailing hyphen;
no empty segment between colons. -/
def goodIconName (l : List Char) : Bool :=
  !l.isEmpty &&
  l.all (fun c => isOutChar c || c == ':') &&
  decide (l.head? ≠ some '-') &&
  decide (l.getLast? ≠ some '-') &&
  (splitColon l).all (fun s => !s.isEmpty && s.all isOutChar)

/-- A well-formed namespace segment (proof-level version of the invariant). -/
def segOk (s : List Char) : Prop :=
  s ≠ [] ∧ (∀ c ∈ s, isOutChar c = true) ∧ s.head? ≠ some '-' ∧ s.getLast? ≠ some '-'

/-- A well-formed colon-joined name (proof-level version of the invariant). -/
def nameOk (l : List Char) : Prop :=
  l ≠ [] ∧ (∀ c ∈ l, isOutChar c = true ∨ c = ':') ∧
  l.head? ≠ some '-' ∧ l.getLast? ≠ some '-' ∧
  ∀ s ∈ splitColon l, s ≠ [] ∧ ∀ c ∈ s, isOutChar c = true

/-- Characters of source entry names under which the invariant is provable:
ASCII letters, digits, hyphen, underscore, whitespace. -/
def allowedInChar (c : Char) : Bool :=
  ('a' ≤ c && c ≤ 'z') || ('A' ≤ c && c ≤ 'Z') || ('0' ≤ c && c ≤ '9') ||
  c == '-' || c == '_' || jsWhitespace c

mutual

/-- Entry names in a tree are benign: directory names and `.svg` base names
use only `allowedInChar` characters and normalize to something non-empty. -/
def entryOk : FsEntry → Bool
  | FsEntry.file nm =>
    !hasSvgExt nm ||
      ((stripSvgExt nm).all allowedInChar && !(normalizeBody (stripSvgExt nm)).isEmpty)
  | FsEntry.dir nm children =>
    nm.all allowedInChar && !(normalizeBody nm).isEmpty && entriesOk children

/-- `entryOk` over a list of entries. -/
def entriesOk : List FsEntry → Bool
  | [] => true
  | e :: rest => entryOk e && entriesOk rest

end

/-! ### The runtime loader `lib/sprite-loader.ts` -/

/-- `SPRITE_VERSION` (sprite-loader.ts:18). -/
def spriteVersion : List Char := "1.0.0".data

/-- `CACHE_KEY_PREFIX` (sprite-loader.ts:19). -/
def cacheKeyBase : List Char := "nextjs-svgsprite".data

/-- `getCacheKey` (sprite-loader.ts:42-44). -/
def getCacheKey (ns : List Char) : List Char := cacheKeyBase ++ '-' :: ns

/-- One in-memory cache entry (sprite-loader.ts:25-32); the pending promise
is modelled by the identifier of the in-flight fetch. -/
structure CacheEntry : Type where
  version : List Char
  content : List Char
  promise : Option Nat
deriving DecidableEq

/-- One persisted session-storage record (its unused timestamp is omitted). -/
structure SessionRec : Type where
  version : List Char
  content : List Char
deriving DecidableEq

/-- The loader's observable state: the two cache tiers, the tracked session
keys, the injected DOM containers, the in-flight fetches, a fresh-id counter
and the log of issued fetches. -/
structure LoaderState : Type where
  spriteCache : List (List Char × CacheEntry)
  session : List (List Char × SessionRec)
  trackedKeys : List (List Char)
  dom : List (List Char × List Char)
  pending : List (Nat × List Char)
  nextId : Nat
  fetchLog : List (List Char)
deriving DecidableEq

/-- The pristine state of a fresh page load. -/
def initLoader : LoaderState := ⟨[], [], [], [], [], 0, []⟩

/-- JavaScript `String.prototype.trim`. -/
def jsTrim (l : List Char) : List Char :=
  ((l.dropWhile jsWhitespace).reverse.dropWhile jsWhitespace).reverse

/-- `String.prototype.includes` on character lists. -/
def containsSeq (pat : List Char) : List Char → Bool
  | [] => pat.isEmpty
  | c :: t => startsWithSeq pat (c :: t) || containsSeq pat t

/-- `isValidSvgContent` (sprite-loader.ts:130-135): trimmed content starts
with `<svg` and the string contains the closing tag. -/
def isValidSvgContent (content : List Char) : Bool :=
  startsWithSeq "<svg".data (jsTrim content) && containsSeq "</svg>".data content

/-- The id of the hidden container element per namespace. -/
def containerId (ns : List Char) : List Char := "sprite-container-".data ++ ns

/-- `injectSprite` (sprite-loader.ts:140-165): validation gate, then create
the container if needed and set its `innerHTML`; invalid content causes no
DOM mutation. -/
def injectSprite (s : LoaderState) (ns content : List Char) : LoaderState :=
  if isValidSvgContent content then
    { s with dom := upsertWith (containerId ns) (fun _ => content) content s.dom }
  else s

/-- `loadFromSessionStorage` (sprite-loader.ts:49-79): version-mismatched
entries are removed and reported as a miss; a hit tracks the key and returns
the stored content. -/
def loadFromSessionStorage (s : LoaderState) (ns : List Char) :
    LoaderState × Option (List Char) :=
  let key := getCacheKey ns
  match findVal key s.session with
  | none => (s, none)
  | some r =>
    if r.version ≠ spriteVersion then
      ({ s with session := eraseKey s.session key,
                trackedKeys := eraseElem s.trackedKeys key }, none)
    else
      ({ s with trackedKeys := addKeyOnce s.trackedKeys key }, some r.content)

/-- `saveToSessionStorage` (sprite-loader.ts:84-102). -/
def saveToSessionStorage (s : LoaderState) (ns content : List Char) : LoaderState :=
  let key := getCacheKey ns
  { s with
    session := upsertWith key (fun _ => ⟨spriteVersion, content⟩)
      ⟨spriteVersion, content⟩ s.session,
    trackedKeys := addKeyOnce s.trackedKeys key }

/-- How a `loadSprite` call returned: synchronously completed, attached to an
existing in-flight fetch, or started a new fetch. -/
inductive LoadResult : Type where
  | completed : LoadResult
  | attached : Nat → LoadResult
  | started : Nat → LoadResult
deriving DecidableEq

/-- Starting a fetch (sprite-loader.ts:211-238): register the in-flight
operation, store the placeholder cache entry carrying the promise, log the
outbound request. -/
def startFetch (s : LoaderState) (ns : List Char) : LoaderState × LoadResult :=
  ({ s with
     pending := s.pending ++ [(s.nextId, ns)],
     nextId := s.nextId + 1,
     spriteCache := upsertWith ns (fun _ => ⟨spriteVersion, [], some s.nextId⟩)
       ⟨spriteVersion, [], some s.nextId⟩ s.spriteCache,
     fetchLog := s.fetchLog ++ [ns] }, LoadResult.started s.nextId)

/-- The session-storage fallback of `loadSprite` (sprite-loader.ts:198-208):
a non-empty hit is backfilled into memory and injected; an empty or missing
hit falls through to the fetch. -/
def sessionLoadPath (s : LoaderState) (ns : List Char) : LoaderState × LoadResult :=
  let r := loadFromSessionStorage s ns
  match r.2 with
  | some content =>
    if content.isEmpty then startFetch r.1 ns
    else
      let s2 := { r.1 with
        spriteCache := upsertWith ns (fun _ => ⟨spriteVersion, content, none⟩)
          ⟨spriteVersion, content, none⟩ r.1.spriteCache }
      (injectSprite s2 ns content, LoadResult.completed)
  | none => startFetch r.1 ns

/-- The synchronous part of one `loadSprite(namespace)` call
(sprite-loader.ts:180-241): in-memory cache first (attaching to an in-flight
promise, or reinjecting loaded content), then session storage, then a fetch. -/
def loadSpriteStep (s : LoaderState) (ns : List Char) : LoaderState × LoadResult :=
  match findVal ns s.spriteCache with
  | some c =>
    match c.promise with
    | some id => (s, LoadResult.attached id)
    | none =>
      if c.version = spriteVersion ∧ ¬ c.content.isEmpty then
        (injectSprite s ns c.content, LoadResult.completed)
      else sessionLoadPath s ns
  | none => sessionLoadPath s ns

/-- Delivery of a successful fetch (the body of the async closure,
sprite-loader.ts:211-225): save to both tiers, replace the placeholder by the
loaded entry, inject into the DOM. -/
def completeFetchOk (s : LoaderState) (id : Nat) (content : List Char) : LoaderState :=
  match findVal id s.pending with
  | none => s
  | some ns =>
    let s0 := { s with pending := eraseKey s.pending id }
    let s1 := saveToSessionStorage s0 ns content
    let s2 := { s1 with
      spriteCache := upsertWith ns (fun _ => ⟨spriteVersion, content, none⟩)
        ⟨spriteVersion, content, none⟩ s1.spriteCache }
    injectSprite s2 ns content

/-- Delivery of a failed fetch (sprite-loader.ts:226-230): the cache entry for
the namespace is deleted, leaving it unloaded. -/
def completeFetchErr (s : LoaderState) (id : Nat) : LoaderState :=
  match findVal id s.pending with
  | none => s
  | some ns =>
    { s with pending := eraseKey s.pending id, spriteCache := eraseKey s.spriteCache ns }

/-- A namespace with no trace in either cache tier. -/
def unloadedAt (s : LoaderState) (ns : List Char) : Prop :=
  findVal ns s.spriteCache = none ∧ findVal (getCacheKey ns) s.session = none

/-- The number of in-flight fetches for a namespace. -/
def pendingCount (s : LoaderState) (ns : List Char) : Nat :=
  s.pending.countP (fun p => decide (p.2 = ns))

/-- The loader state invariant: in-flight identifiers are distinct and fresh,
every in-flight fetch is backed by its placeholder cache entry, and no two
in-flight fetches share a namespace. -/
def WfLoader (s : LoaderState) : Prop :=
  (s.pending.map Prod.fst).Nodup ∧
  (∀ p ∈ s.pending, p.1 < s.nextId) ∧
  (∀ p ∈ s.pending, findVal p.2 s.spriteCache = some ⟨spriteVersion, [], some p.1⟩) ∧
  (∀ p ∈ s.pending, ∀ q ∈ s.pending, p.2 = q.2 → p.1 = q.1)

instance (s : LoaderState) : Decidable (WfLoader s) := by
  unfold WfLoader
  infer_instance

/-! ### Character-level facts -/

theorem char_le_iff_toNat (a c : Char) : (a ≤ c) ↔ (a.toNat ≤ c.toNat) := by rfl

theorem char_eq_iff_toNat (c d : Char) : c = d ↔ c.toNat = d.toNat := by
  constructor
  · rintro rfl; rfl
  · intro h; exact Char.eq_of_val_eq (UInt32.ext h)

theorem toNat_ofNat_valid (n : Nat) (h : n < 55296) : (Char.ofNat n).toNat = n := by
  have hv : n.isValidChar := Or.inl h
  simp [Char.ofNat, dif_pos hv, Char.ofNatAux, Char.toNat, UInt32.toNat, BitVec.toNat_ofNatLt]

theorem isUpperAscii_iff (c : Char) :
    isUpperAscii c = true ↔ (65 ≤ c.toNat ∧ c.toNat ≤ 90) := by
  simp [isUpperAscii, char_le_iff_toNat]

theorem toLower_toNat_of_upper (c : Char) (h1 : 65 ≤ c.toNat) (h2 : c.toNat ≤ 90) :
    (Char.toLower c).toNat = c.toNat + 32 := by
  have hx := toNat_ofNat_valid (c.toNat + 32) (by omega)
  simp only [Char.toLower]
  rw [if_pos ⟨h1, h2⟩]
  exact hx

theorem toLower_eq_self (c : Char) (h : ¬ (65 ≤ c.toNat ∧ c.toNat ≤ 90)) :
    Char.toLower c = c := by
  simp only [Char.toLower]
  rw [if_neg h]

/-- Either `toLower` fixes a character, or the character was an ASCII capital
and the result is the corresponding ASCII lowercase letter. -/
theorem toLower_cases (c : Char) :
    Char.toLower c = c ∨
      (isUpperAscii c = true ∧ 97 ≤ (Char.toLower c).toNat ∧ (Char.toLower c).toNat ≤ 122) := by
  by_cases h : 65 ≤ c.toNat ∧ c.toNat ≤ 90
  · right
    refine ⟨(isUpperAscii_iff c).mpr h, ?_, ?_⟩ <;>
      rw [toLower_toNat_of_upper c h.1 h.2] <;> omega
  · left; exact toLower_eq_self c h

theorem jsWhitespace_iff (c : Char) : jsWhitespace c = true ↔
    (c.toNat = 9 ∨ c.toNat = 10 ∨ c.toNat = 11 ∨ c.toNat = 12 ∨ c.toNat = 13 ∨
     c.toNat = 32 ∨ c.toNat = 0xa0 ∨ c.toNat = 0x1680 ∨
     (0x2000 ≤ c.toNat ∧ c.toNat ≤ 0x200a) ∨ c.toNat = 0x2028 ∨ c.toNat = 0x2029 ∨
     c.toNat = 0x202f ∨ c.toNat = 0x205f ∨ c.toNat = 0x3000 ∨ c.toNat = 0xfeff) := by
  simp [jsWhitespace]
  tauto

theorem isUpperAscii_toLower (c : Char) : isUpperAscii (Char.toLower c) = false := by
  apply Bool.eq_false_iff.mpr
  intro ht
  have hup := (isUpperAscii_iff _).mp ht
  rcases toLower_cases c with h | ⟨_, h1, h2⟩
  · rw [h] at hup
    have := toLower_toNat_of_upper c hup.1 hup.2
    rw [h] at this
    omega
  · omega

theorem jsWhitespace_toLower (c : Char) (h : jsWhitespace c = false) :
    jsWhitespace (Char.toLower c) = false := by
  rcases toLower_cases c with hc | ⟨_, h1, h2⟩
  · rw [hc]; exact h
  · apply Bool.eq_false_iff.mpr
    intro ht
    have := (jsWhitespace_iff _).mp ht
    omega

theorem toLower_ne_of_ne (c d : Char) (hd : d.toNat < 97 ∨ 122 < d.toNat)
    (h : c ≠ d) : Char.toLower c ≠ d := by
  rcases toLower_cases c with hc | ⟨_, h1, h2⟩
  · rw [hc]; exact h
  · intro he
    rw [char_eq_iff_toNat] at he
    omega

theorem toLower_toLower (c : Char) : Char.toLower (Char.toLower c) = Char.toLower c := by
  apply toLower_eq_self
  intro hcon
  have := isUpperAscii_toLower c
  rw [(isUpperAscii_iff _).mpr hcon] at this
  cases this

/-! ### Membership through the pipeline stages -/

theorem mem_collapseWsGo (c : Char) :
    ∀ (b : Bool) (l : List Char), c ∈ collapseWsGo b l → c = ' ' ∨ c ∈ l := by
  intro b l
  induction l generalizing b with
  | nil => intro h; cases h
  | cons d t ih =>
    intro h
    simp only [collapseWsGo] at h
    split at h
    · split at h
      · rcases ih _ h with h1 | h1
        · exact Or.inl h1
        · exact Or.inr (List.mem_cons_of_mem d h1)
      · rw [List.mem_cons] at h
        rcases h with h | h
        · exact Or.inl h
        · rcases ih _ h with h1 | h1
          · exact Or.inl h1
          · exact Or.inr (List.mem_cons_of_mem d h1)
    · rw [List.mem_cons] at h
      rcases h with h | h
      · exact Or.inr (by simp [h])
      · rcases ih _ h with h1 | h1
        · exact Or.inl h1
        · exact Or.inr (List.mem_cons_of_mem d h1)

theorem mem_camelSplit (c : Char) :
    ∀ l : List Char, c ∈ camelSplit l → c = '-' ∨ c ∈ l := by
  intro l
  induction l using camelSplit.induct with
  | case1 => intro h; cases h
  | case2 a => intro h; exact Or.inr h
  | case3 a b t hc ih =>
    intro h
    simp only [camelSplit, if_pos hc, List.mem_cons] at h
    rcases h with h | h | h | h
    · exact Or.inr (by simp [h])
    · exact Or.inl h
    · exact Or.inr (by simp [h])
    · rcases ih h with h1 | h1
      · exact Or.inl h1
      · exact Or.inr (by simp [h1])
  | case4 a b t hc ih =>
    intro h
    simp only [camelSplit, if_neg hc, List.mem_cons] at h
    rcases h with h | h
    · exact Or.inr (by simp [h])
    · rcases ih h with h1 | h1
      · exact Or.inl h1
      · exact Or.inr (by simp [h1])

theorem mem_collapseHyGo (c : Char) :
    ∀ (b : Bool) (l : List Char), c ∈ collapseHyGo b l → c ∈ l := by
  intro b l
  induction l generalizing b with
  | nil => intro h; cases h
  | cons d t ih =>
    intro h
    simp only [collapseHyGo] at h
    split at h
    · split at h
      · exact List.mem_cons_of_mem d (ih _ h)
      · rw [List.mem_cons] at h
        rcases h with h | h
        · rename_i hd _
          simp [h, hd]
        · exact List.mem_cons_of_mem d (ih _ h)
    · rw [List.mem_cons] at h
      rcases h with h | h
      · exact h ▸ List.mem_cons_self d t
      · exact List.mem_cons_of_mem d (ih _ h)

theorem mem_dropLeadingHyphen (c : Char) (l : List Char)
    (h : c ∈ dropLeadingHyphen l) : c ∈ l := by
  unfold dropLeadingHyphen at h
  split at h
  · exact List.mem_cons_of_mem _ h
  · exact h

theorem mem_dropTrailingHyphen (c : Char) (l : List Char)
    (h : c ∈ dropTrailingHyphen l) : c ∈ l := by
  unfold dropTrailingHyphen at h
  split at h
  · exact List.dropLast_subset l h
  · exact h

/-- Every character of `normalizeBody l` is either a hyphen or `toLower` of a
non-whitespace, non-underscore character of `l`. -/
theorem mem_normalizeBody (c : Char) (l : List Char) (h : c ∈ normalizeBody l) :
    c = '-' ∨ ∃ d ∈ l, jsWhitespace d = false ∧ d ≠ '_' ∧ c = Char.toLower d := by
  unfold normalizeBody jsStripEdgeHyphens jsCollapseHyphens jsToLowerCase
    jsUnderscoreToHyphen jsWsToHyphen jsCollapseWs at h
  have h1 := mem_collapseHyGo c _ _ (mem_dropLeadingHyphen c _ (mem_dropTrailingHyphen c _ h))
  rw [List.mem_map] at h1
  obtain ⟨d4, hd4, hlow⟩ := h1
  rw [List.mem_map] at hd4
  obtain ⟨d3, hd3, hund⟩ := hd4
  by_cases hu : d3 = '_'
  · left
    rw [← hlow, ← hund, hu]
    rfl
  · rcases mem_camelSplit d3 _ hd3 with hh | hh
    · left
      rw [← hlow, ← hund, if_neg hu, hh]
      rfl
    · rw [List.mem_map] at hh
      obtain ⟨d1, hd1, hws⟩ := hh
      by_cases hw : jsWhitespace d1 = true
      · left
        rw [← hlow, ← hund, if_neg hu, ← hws, if_pos hw]
        rfl
      · rcases mem_collapseWsGo d1 _ _ hd1 with hsp | hsp
        · exfalso
          apply hw
          rw [hsp]
          rfl
        · right
          refine ⟨d1, hsp, Bool.eq_false_iff.mpr hw, ?_, ?_⟩
          · intro he
            apply hu
            rw [← hws, if_neg hw] at *
            rw [← hund] at *
            exact he
          · rw [← hlow, ← hund, if_neg hu, ← hws, if_neg hw]

/-! ### Hyphen-run structure of the pipeline output -/

/-- No two adjacent hyphens. -/
def noHH : List Char → Bool
  | a :: b :: t => (!(a == '-' && b == '-')) && noHH (b :: t)
  | _ => true

theorem noHH_nil : noHH [] = true := rfl

theorem noHH_single (a : Char) : noHH [a] = true := rfl

theorem noHH_cons_iff (a b : Char) (t : List Char) :
    noHH (a :: b :: t) = true ↔ (¬(a = '-' ∧ b = '-')) ∧ noHH (b :: t) = true := by
  simp [noHH]
  tauto

theorem noHH_tail (a : Char) (t : List Char) (h : noHH (a :: t) = true) : noHH t = true := by
  cases t with
  | nil => rfl
  | cons b t' => exact ((noHH_cons_iff a b t').mp h).2

theorem noHH_cons_of_head (a : Char) (l : List Char)
    (hl : noHH l = true) (hh : l.head? ≠ some '-') : noHH (a :: l) = true := by
  cases l with
  | nil => rfl
  | cons b t =>
    apply (noHH_cons_iff a b t).mpr
    refine ⟨?_, hl⟩
    rintro ⟨-, h2⟩
    exact hh (by rw [h2]; rfl)

theorem noHH_cons_of_ne (a : Char) (l : List Char)
    (hl : noHH l = true) (ha : a ≠ '-') : noHH (a :: l) = true := by
  cases l with
  | nil => rfl
  | cons b t =>
    apply (noHH_cons_iff a b t).mpr
    exact ⟨fun hc => ha hc.1, hl⟩

theorem head_collapseHyGo_true (l : List Char) :
    (collapseHyGo true l).head? ≠ some '-' := by
  induction l with
  | nil => simp [collapseHyGo]
  | cons c t ih =>
    simp only [collapseHyGo]
    split
    · exact ih
    · rename_i hc
      simp
      intro he
      exact hc he

theorem noHH_collapseHyGo (b : Bool) (l : List Char) : noHH (collapseHyGo b l) = true := by
  induction l generalizing b with
  | nil => rfl
  | cons c t ih =>
    simp only [collapseHyGo]
    split
    · split
      · exact ih true
      · exact noHH_cons_of_head '-' _ (ih true) (head_collapseHyGo_true t)
    · rename_i hc
      exact noHH_cons_of_ne c _ (ih false) hc

theorem noHH_dropLast : ∀ l : List Char, noHH l = true → noHH l.dropLast = true := by
  intro l
  induction l with
  | nil => intro _; rfl
  | cons a t ih =>
    intro h
    cases t with
    | nil => rfl
    | cons b t' =>
      have h1 := (noHH_cons_iff a b t').mp h
      cases t' with
      | nil => rfl
      | cons c t'' =>
        rw [List.dropLast_cons₂]
        have h2 := ih h1.2
        rw [List.dropLast_cons₂] at h2
        exact (noHH_cons_iff a b _).mpr ⟨h1.1, h2⟩

theorem getLast?_dropLast_ne_of_noHH :
    ∀ l : List Char, noHH l = true → l.getLast? = some '-' →
      l.dropLast.getLast? ≠ some '-' := by
  intro l
  induction l with
  | nil => intro _ hl; cases hl
  | cons a t ih =>
    intro h hl
    cases t with
    | nil => simp
    | cons b t' =>
      have h1 := (noHH_cons_iff a b t').mp h
      cases t' with
      | nil =>
        simp at hl ⊢
        intro ha
        exact h1.1 ⟨ha, hl⟩
      | cons c t'' =>
        rw [List.getLast?_cons_cons] at hl
        have ihx := ih h1.2 hl
        have hne : (b :: c :: t'').dropLast ≠ [] := by
          rw [List.dropLast_cons₂]
          simp
        rw [List.dropLast_cons₂]
        cases hx : (b :: c :: t'').dropLast with
        | nil => exact absurd hx hne
        | cons u v =>
          rw [hx] at ihx
          simpa using ihx

theorem head_dropLeadingHyphen_ne (l : List Char) (h : noHH l = true) :
    (dropLeadingHyphen l).head? ≠ some '-' := by
  cases l with
  | nil => simp [dropLeadingHyphen]
  | cons a t =>
    by_cases ha : a = '-'
    · subst ha
      show (dropLeadingHyphen ('-' :: t)).head? ≠ some '-'
      have : dropLeadingHyphen ('-' :: t) = t := rfl
      rw [this]
      cases t with
      | nil => simp
      | cons b t' =>
        have h1 := (noHH_cons_iff '-' b t').mp h
        simp only [List.head?_cons]
        intro hb
        apply h1.1
        exact ⟨rfl, by injection hb⟩
    · have : dropLeadingHyphen (a :: t) = a :: t := by
        unfold dropLeadingHyphen
        split
        · rename_i heq
          injection heq with h1 h2
          exact absurd h1 ha
        · rfl
      rw [this]
      simp only [List.head?_cons]
      intro hb
      exact ha (by injection hb)

theorem head_dropTrailingHyphen_ne (l : List Char) (h : l.head? ≠ some '-') :
    (dropTrailingHyphen l).head? ≠ some '-' := by
  unfold dropTrailingHyphen
  split
  · cases l with
    | nil => simp
    | cons a t =>
      cases t with
      | nil => simp
      | cons b t' =>
        rw [List.dropLast_cons₂]
        simpa using h
  · exact h

theorem noHH_dropLeadingHyphen (l : List Char) (h : noHH l = true) :
    noHH (dropLeadingHyphen l) = true := by
  unfold dropLeadingHyphen
  split
  · exact noHH_tail _ _ h
  · exact h

theorem getLast?_dropTrailingHyphen_ne (l : List Char) (h : noHH l = true) :
    (dropTrailingHyphen l).getLast? ≠ some '-' := by
  unfold dropTrailingHyphen
  split
  · rename_i hl
    exact getLast?_dropLast_ne_of_noHH l h hl
  · rename_i hl
    exact hl

theorem noHH_dropTrailingHyphen (l : List Char) (h : noHH l = true) :
    noHH (dropTrailingHyphen l) = true := by
  unfold dropTrailingHyphen
  split
  · exact noHH_dropLast l h
  · exact h

theorem head_jsStripEdgeHyphens_ne (l : List Char) (h : noHH l = true) :
    (jsStripEdgeHyphens l).head? ≠ some '-' := by
  exact head_dropTrailingHyphen_ne _ (head_dropLeadingHyphen_ne l h)

theorem getLast?_jsStripEdgeHyphens_ne (l : List Char) (h : noHH l = true) :
    (jsStripEdgeHyphens l).getLast? ≠ some '-' := by
  exact getLast?_dropTrailingHyphen_ne _ (noHH_dropLeadingHyphen l h)

theorem noHH_jsStripEdgeHyphens (l : List Char) (h : noHH l = true) :
    noHH (jsStripEdgeHyphens l) = true := by
  exact noHH_dropTrailingHyphen _ (noHH_dropLeadingHyphen l h)

theorem head_normalizeBody_ne (l : List Char) :
    (normalizeBody l).head? ≠ some '-' :=
  head_jsStripEdgeHyphens_ne _ (noHH_collapseHyGo false _)

theorem getLast?_normalizeBody_ne (l : List Char) :
    (normalizeBody l).getLast? ≠ some '-' :=
  getLast?_jsStripEdgeHyphens_ne _ (noHH_collapseHyGo false _)

theorem noHH_normalizeBody (l : List Char) : noHH (normalizeBody l) = true :=
  noHH_jsStripEdgeHyphens _ (noHH_collapseHyGo false _)

/-! ### Fixpoint lemmas: each stage fixes an already-normalized string -/

theorem map_eq_self_of {f : Char → Char} :
    ∀ l : List Char, (∀ c ∈ l, f c = c) → l.map f = l := by
  intro l
  induction l with
  | nil => intro _; rfl
  | cons a t ih =>
    intro h
    simp only [List.map_cons]
    rw [h a (List.mem_cons_self a t), ih fun c hc => h c (List.mem_cons_of_mem a hc)]

theorem collapseWsGo_eq_self (l : List Char) (h : ∀ c ∈ l, jsWhitespace c = false) :
    ∀ b, collapseWsGo b l = l := by
  induction l with
  | nil => intro b; rfl
  | cons a t ih =>
    intro b
    simp only [collapseWsGo]
    rw [if_neg (by rw [h a (List.mem_cons_self a t)]; simp)]
    rw [ih (fun c hc => h c (List.mem_cons_of_mem a hc)) false]

theorem jsWsToHyphen_eq_self (l : List Char) (h : ∀ c ∈ l, jsWhitespace c = false) :
    jsWsToHyphen l = l := by
  apply map_eq_self_of
  intro c hc
  rw [if_neg (by rw [h c hc]; simp)]

theorem camelSplit_eq_self (l : List Char) (h : ∀ c ∈ l, isUpperAscii c = false) :
    camelSplit l = l := by
  induction l using camelSplit.induct with
  | case1 => rfl
  | case2 a => rfl
  | case3 a b t hc ih =>
    exfalso
    have hb := h b (List.mem_cons_of_mem a (List.mem_cons_self b t))
    rw [Bool.and_eq_true] at hc
    rw [hc.2] at hb
    cases hb
  | case4 a b t hc ih =>
    simp only [camelSplit]
    rw [if_neg hc, ih fun c hcm => h c (List.mem_cons_of_mem a hcm)]

theorem jsUnderscoreToHyphen_eq_self (l : List Char) (h : ∀ c ∈ l, c ≠ '_') :
    jsUnderscoreToHyphen l = l := by
  apply map_eq_self_of
  intro c hc
  rw [if_neg (h c hc)]

theorem jsToLowerCase_eq_self (l : List Char) (h : ∀ c ∈ l, isUpperAscii c = false) :
    jsToLowerCase l = l := by
  apply map_eq_self_of
  intro c hc
  apply toLower_eq_self
  intro hcon
  have hx := h c hc
  rw [(isUpperAscii_iff c).mpr hcon] at hx
  cases hx

theorem collapseHyGo_eq_self (l : List Char) (h : noHH l = true) :
    collapseHyGo false l = l ∧ (l.head? ≠ some '-' → collapseHyGo true l = l) := by
  induction l with
  | nil => exact ⟨rfl, fun _ => rfl⟩
  | cons a t ih =>
    obtain ⟨ih1, ih2⟩ := ih (noHH_tail a t h)
    by_cases ha : a = '-'
    · subst ha
      have hht : t.head? ≠ some '-' := by
        cases t with
        | nil => simp
        | cons b t' =>
          have h1 := (noHH_cons_iff '-' b t').mp h
          simp only [List.head?_cons]
          intro hb
          exact h1.1 ⟨rfl, by injection hb⟩
      constructor
      · show collapseHyGo false ('-' :: t) = '-' :: t
        have hstep : collapseHyGo false ('-' :: t) = '-' :: collapseHyGo true t := by
          simp [collapseHyGo]
        rw [hstep, ih2 hht]
      · intro hcon
        exfalso
        apply hcon
        rfl
    · constructor
      · show collapseHyGo false (a :: t) = a :: t
        simp only [collapseHyGo]
        rw [if_neg ha, ih1]
      · intro _
        show collapseHyGo true (a :: t) = a :: t
        simp only [collapseHyGo]
        rw [if_neg ha, ih1]

theorem jsStripEdgeHyphens_eq_self (l : List Char)
    (h1 : l.head? ≠ some '-') (h2 : l.getLast? ≠ some '-') :
    jsStripEdgeHyphens l = l := by
  unfold jsStripEdgeHyphens
  have hd : dropLeadingHyphen l = l := by
    unfold dropLeadingHyphen
    split
    · exact absurd rfl h1
    · rfl
  rw [hd]
  unfold dropTrailingHyphen
  rw [if_neg h2]

/-- Every character of `normalizeBody l` is non-whitespace, not an underscore
and not an ASCII capital. -/
theorem normalizeBody_chars_clean (l : List Char) (c : Char) (hc : c ∈ normalizeBody l) :
    jsWhitespace c = false ∧ c ≠ '_' ∧ isUpperAscii c = false := by
  rcases mem_normalizeBody c l hc with h | ⟨d, _, hdw, hdu, heq⟩
  · subst h
    refine ⟨rfl, by decide, rfl⟩
  · subst heq
    refine ⟨jsWhitespace_toLower d hdw, ?_, isUpperAscii_toLower d⟩
    exact toLower_ne_of_ne d '_' (by left; decide) hdu

/-- The normalization pipeline is idempotent (C5, pipeline level). -/
theorem normalizeBody_idem (l : List Char) :
    normalizeBody (normalizeBody l) = normalizeBody l := by
  have hclean := normalizeBody_chars_clean l
  have hws : ∀ c ∈ normalizeBody l, jsWhitespace c = false := fun c hc => (hclean c hc).1
  have hun : ∀ c ∈ normalizeBody l, c ≠ '_' := fun c hc => (hclean c hc).2.1
  have hup : ∀ c ∈ normalizeBody l, isUpperAscii c = false := fun c hc => (hclean c hc).2.2
  have hnoHH := noHH_normalizeBody l
  have hhead := head_normalizeBody_ne l
  have hlast := getLast?_normalizeBody_ne l
  conv_lhs => rw [normalizeBody]
  rw [show jsCollapseWs (normalizeBody l) = normalizeBody l from
    collapseWsGo_eq_self _ hws false]
  rw [jsWsToHyphen_eq_self _ hws]
  rw [camelSplit_eq_self _ hup]
  rw [jsUnderscoreToHyphen_eq_self _ hun]
  rw [jsToLowerCase_eq_self _ hup]
  rw [show jsCollapseHyphens (normalizeBody l) = normalizeBody l from
    (collapseHyGo_eq_self _ hnoHH).1]
  exact jsStripEdgeHyphens_eq_self _ hhead hlast

/-! ### Association-list lemmas -/

theorem findVal_upsert_self {K V : Type} [DecidableEq K] (k : K) (f : V → V) (v0 : V) :
    ∀ g : List (K × V), findVal k (upsertWith k f v0 g) =
      some (match findVal k g with | some v => f v | none => v0) := by
  intro g
  induction g with
  | nil => simp [upsertWith, findVal]
  | cons p t ih =>
    obtain ⟨k', v⟩ := p
    by_cases h : k' = k
    · subst h
      simp [upsertWith, findVal]
    · simp only [upsertWith, findVal, if_neg h]
      exact ih

theorem findVal_upsert_ne {K V : Type} [DecidableEq K] (k k' : K) (f : V → V) (v0 : V)
    (hne : k' ≠ k) : ∀ g : List (K × V), findVal k' (upsertWith k f v0 g) = findVal k' g := by
  have hkk : ¬ (k = k') := fun hh => hne (Eq.symm hh)
  intro g
  induction g with
  | nil =>
    simp only [upsertWith, findVal, if_neg hkk]
  | cons p t ih =>
    obtain ⟨k'', v⟩ := p
    by_cases h : k'' = k
    · subst h
      simp only [upsertWith, if_pos rfl, findVal, if_neg hkk]
    · simp only [upsertWith, if_neg h, findVal]
      by_cases h2 : k'' = k'
      · rw [if_pos h2, if_pos h2]
      · rw [if_neg h2, if_neg h2]
        exact ih

theorem findVal_none_iff_not_mem_keys {K V : Type} [DecidableEq K] (k : K) :
    ∀ g : List (K × V), findVal k g = none ↔ k ∉ g.map Prod.fst := by
  intro g
  induction g with
  | nil => simp [findVal]
  | cons p t ih =>
    obtain ⟨k', v⟩ := p
    by_cases h : k' = k
    · subst h
      simp [findVal]
    · have hks : ¬ (k = k') := fun hh => h (Eq.symm hh)
      simp [findVal, if_neg h, ih, hks]

theorem mem_of_findVal {K V : Type} [DecidableEq K] (k : K) (v : V) :
    ∀ g : List (K × V), findVal k g = some v → (k, v) ∈ g := by
  intro g
  induction g with
  | nil => intro h; cases h
  | cons p t ih =>
    obtain ⟨k', v'⟩ := p
    intro h
    simp only [findVal] at h
    split at h
    · rename_i heq
      injection h with h
      subst heq h
      exact List.mem_cons_self _ _
    · exact List.mem_cons_of_mem _ (ih h)

theorem findVal_of_mem_nodup {K V : Type} [DecidableEq K] (k : K) (v : V) :
    ∀ g : List (K × V), (g.map Prod.fst).Nodup → (k, v) ∈ g → findVal k g = some v := by
  intro g
  induction g with
  | nil => intro _ h; cases h
  | cons p t ih =>
    obtain ⟨k', v'⟩ := p
    intro hnd hm
    rw [List.map_cons] at hnd
    have hnd' := List.nodup_cons.mp hnd
    rw [List.mem_cons] at hm
    rcases hm with hm | hm
    · injection hm with h1 h2
      subst h1 h2
      simp [findVal]
    · have hk : k' ≠ k := by
        intro he
        subst he
        have hx := List.mem_map_of_mem Prod.fst hm
        exact hnd'.1 hx
      simp only [findVal, if_neg hk]
      exact ih hnd'.2 hm

theorem upsert_map_fst {K V : Type} [DecidableEq K] (k : K) (f : V → V) (v0 : V) :
    ∀ g : List (K × V), (upsertWith k f v0 g).map Prod.fst =
      if k ∈ g.map Prod.fst then g.map Prod.fst else g.map Prod.fst ++ [k] := by
  intro g
  induction g with
  | nil => simp [upsertWith]
  | cons p t ih =>
    obtain ⟨k', v⟩ := p
    by_cases h : k' = k
    · subst h
      simp [upsertWith]
    · have hks : ¬ (k = k') := fun hh => h (Eq.symm hh)
      simp only [upsertWith, if_neg h, List.map_cons, ih]
      by_cases h2 : k ∈ t.map Prod.fst
      · simp [h2, hks]
      · simp [h2, hks]

theorem nodup_keys_upsert {K V : Type} [DecidableEq K] (k : K) (f : V → V) (v0 : V)
    (g : List (K × V)) (h : (g.map Prod.fst).Nodup) :
    ((upsertWith k f v0 g).map Prod.fst).Nodup := by
  rw [upsert_map_fst]
  split
  · exact h
  · rename_i hnm
    rw [List.nodup_append]
    refine ⟨h, List.nodup_singleton k, ?_⟩
    intro a ha hb
    rw [List.mem_singleton] at hb
    exact hnm (hb ▸ ha)

theorem mem_upsert {K V : Type} [DecidableEq K] (k : K) (f : V → V) (v0 : V) (p : K × V) :
    ∀ g : List (K × V), p ∈ upsertWith k f v0 g →
      p ∈ g ∨ p = (k, v0) ∨ ∃ v, (k, v) ∈ g ∧ p = (k, f v) := by
  intro g
  induction g with
  | nil =>
    intro h
    rw [upsertWith, List.mem_singleton] at h
    exact Or.inr (Or.inl h)
  | cons q t ih =>
    obtain ⟨k', v'⟩ := q
    intro h
    by_cases hk : k' = k
    · subst hk
      simp only [upsertWith, if_pos rfl, List.mem_cons, if_true, eq_self_iff_true] at h
      rcases h with h | h
      · exact Or.inr (Or.inr ⟨v', List.mem_cons_self _ _, h⟩)
      · exact Or.inl (List.mem_cons_of_mem _ h)
    · simp only [upsertWith, if_neg hk, List.mem_cons] at h
      rcases h with h | h
      · exact Or.inl (h ▸ List.mem_cons_self _ _)
      · rcases ih h with h1 | h1 | ⟨v, hv, hp⟩
        · exact Or.inl (List.mem_cons_of_mem _ h1)
        · exact Or.inr (Or.inl h1)
        · exact Or.inr (Or.inr ⟨v, List.mem_cons_of_mem _ hv, hp⟩)

theorem mem_listFlatMap {A B : Type} (f : A → List B) (b : B) :
    ∀ l : List A, b ∈ listFlatMap f l ↔ ∃ a ∈ l, b ∈ f a := by
  intro l
  induction l with
  | nil => simp [listFlatMap]
  | cons a t ih =>
    simp [listFlatMap, List.mem_append, ih]

/-! ### Characterizing the duplicate-detection maps -/

theorem findVal_insertIconFile (m : List (List Char × List DupFile))
    (icon : List Char) (d : DupFile) (icon' : List Char) :
    findVal icon' (insertIconFile m icon d) =
      if icon' = icon then some ((findVal icon m).getD [] ++ [d]) else findVal icon' m := by
  unfold insertIconFile
  by_cases h : icon' = icon
  · subst h
    rw [findVal_upsert_self, if_pos rfl]
    cases hf : findVal icon' m <;> simp [hf]
  · rw [findVal_upsert_ne _ _ _ _ h, if_neg h]

theorem innerFind_insertNsFile (g : List (List Char × List (List Char × List DupFile)))
    (ns icon : List Char) (d : DupFile) (ns' icon' : List Char) :
    innerFind (insertNsFile g ns icon d) ns' icon' =
      if ns' = ns ∧ icon' = icon then some ((innerFind g ns icon).getD [] ++ [d])
      else innerFind g ns' icon' := by
  unfold innerFind insertNsFile
  by_cases hn : ns' = ns
  · subst hn
    rw [findVal_upsert_self]
    cases hf : findVal ns' g with
    | none =>
      simp only [hf, Option.getD_some, Option.getD_none, findVal_insertIconFile]
      by_cases hi : icon' = icon
      · simp [hi, findVal]
      · simp [hi, findVal]
    | some m =>
      simp only [hf, Option.getD_some, findVal_insertIconFile]
      by_cases hi : icon' = icon
      · simp [hi]
      · simp [hi]
  · rw [findVal_upsert_ne _ _ _ _ hn]
    simp [hn]

theorem foldl_optAccum {A B : Type} (item : A → B) :
    ∀ (fl : List A) (o : Option (List B)),
      fl.foldl (fun o a => some (o.getD [] ++ [item a])) o =
        if fl.isEmpty then o else some (o.getD [] ++ fl.map item) := by
  intro fl
  induction fl with
  | nil => intro o; simp
  | cons a t ih =>
    intro o
    simp only [List.foldl_cons, ih, List.isEmpty_cons]
    cases t with
    | nil => simp
    | cons b t' => simp

theorem innerFind_dupFold (ns icon : List Char) :
    ∀ (files : List SvgFile) (g : List (List Char × List (List Char × List DupFile))),
      innerFind
        (files.foldl
          (fun g f => insertNsFile g (splitNsIcon f.name).1 (splitNsIcon f.name).2 (mkDupFile f)) g)
        ns icon =
      (files.filter (fun f => decide (splitNsIcon f.name = (ns, icon)))).foldl
        (fun o f => some (o.getD [] ++ [mkDupFile f])) (innerFind g ns icon) := by
  intro files
  induction files with
  | nil => intro g; rfl
  | cons f t ih =>
    intro g
    simp only [List.foldl_cons, List.filter_cons]
    by_cases hk : splitNsIcon f.name = (ns, icon)
    · have hc : ns = (splitNsIcon f.name).1 ∧ icon = (splitNsIcon f.name).2 := by
        rw [hk]
        exact ⟨rfl, rfl⟩
      rw [ih]
      rw [innerFind_insertNsFile, if_pos hc]
      simp [hk]
    · have hc : ¬ (ns = (splitNsIcon f.name).1 ∧ icon = (splitNsIcon f.name).2) := by
        intro hpair
        apply hk
        rw [hpair.1, hpair.2]
      rw [ih, innerFind_insertNsFile, if_neg hc]
      simp [hk]

theorem dupGroups_find (files : List SvgFile) (ns icon : List Char) :
    innerFind (dupGroups files) ns icon =
      if (files.filter (fun f => decide (splitNsIcon f.name = (ns, icon)))).isEmpty then none
      else some ((files.filter (fun f => decide (splitNsIcon f.name = (ns, icon)))).map mkDupFile) := by
  unfold dupGroups
  rw [innerFind_dupFold]
  have h0 : innerFind [] ns icon = none := rfl
  rw [h0, foldl_optAccum]
  split
  · rfl
  · simp

theorem dupGroups_wfAux :
    ∀ (files : List SvgFile) (g : List (List Char × List (List Char × List DupFile))),
      ((g.map Prod.fst).Nodup ∧ ∀ p ∈ g, (p.2.map Prod.fst).Nodup) →
      (((files.foldl
          (fun g f => insertNsFile g (splitNsIcon f.name).1 (splitNsIcon f.name).2 (mkDupFile f))
          g).map Prod.fst).Nodup ∧
        ∀ p ∈ files.foldl
          (fun g f => insertNsFile g (splitNsIcon f.name).1 (splitNsIcon f.name).2 (mkDupFile f)) g,
          (p.2.map Prod.fst).Nodup) := by
  intro files
  induction files with
  | nil => intro g h; exact h
  | cons f t ih =>
    intro g h
    rw [List.foldl_cons]
    apply ih
    constructor
    · exact nodup_keys_upsert _ _ _ _ h.1
    · intro p hp
      rcases mem_upsert _ _ _ _ _ hp with h1 | h1 | ⟨v, hv, h1⟩
      · exact h.2 p h1
      · rw [h1]
        exact nodup_keys_upsert _ _ _ _ (by simp)
      · rw [h1]
        exact nodup_keys_upsert _ _ _ _ (h.2 _ hv)

theorem dupGroups_wf (files : List SvgFile) :
    ((dupGroups files).map Prod.fst).Nodup ∧
      ∀ p ∈ dupGroups files, (p.2.map Prod.fst).Nodup :=
  dupGroups_wfAux files [] ⟨List.nodup_nil, by simp⟩

theorem dup_mem_duplicatesFound (files : List SvgFile) (f : SvgFile) (hf : f ∈ files)
    (hcount : 2 ≤
      (files.filter (fun g => decide (splitNsIcon g.name = splitNsIcon f.name))).length) :
    (⟨dupNsLabel (splitNsIcon f.name).1, (splitNsIcon f.name).2,
      ((files.filter (fun g => decide (splitNsIcon g.name = splitNsIcon f.name))).map
        mkDupFile).map (fun x => x.originalName)⟩ : DupRec) ∈ duplicatesFound files := by
  cases hsp : splitNsIcon f.name with
  | mk ns icon =>
  have hpredeq : (fun g : SvgFile => decide (splitNsIcon g.name = (ns, icon))) =
      (fun g : SvgFile => decide (splitNsIcon g.name = splitNsIcon f.name)) := by
    funext g
    rw [hsp]
  have hffilter : f ∈ files.filter (fun g => decide (splitNsIcon g.name = splitNsIcon f.name)) :=
    List.mem_filter.mpr ⟨hf, by simp⟩
  have hfind := dupGroups_find files ns icon
  rw [hpredeq] at hfind
  have hie : (files.filter
      (fun g => decide (splitNsIcon g.name = splitNsIcon f.name))).isEmpty = false := by
    cases hcase : (files.filter
        (fun g => decide (splitNsIcon g.name = splitNsIcon f.name))).isEmpty
    · rfl
    · rw [List.isEmpty_iff] at hcase
      rw [hcase] at hffilter
      cases hffilter
  rw [hie] at hfind
  simp only [Bool.false_eq_true, if_false] at hfind
  unfold innerFind at hfind
  cases hg : findVal ns (dupGroups files) with
  | none =>
    rw [hg] at hfind
    simp [findVal] at hfind
  | some m =>
    rw [hg] at hfind
    simp only [Option.getD_some] at hfind
    have hmmem : (ns, m) ∈ dupGroups files := mem_of_findVal _ _ _ hg
    have hdsmem : (icon,
        (files.filter (fun g => decide (splitNsIcon g.name = splitNsIcon f.name))).map
          mkDupFile) ∈ m := mem_of_findVal _ _ _ hfind
    unfold duplicatesFound
    apply (mem_listFlatMap _ _ _).mpr
    refine ⟨(ns, m), hmmem, ?_⟩
    apply List.mem_map.mpr
    refine ⟨(icon,
      (files.filter (fun g => decide (splitNsIcon g.name = splitNsIcon f.name))).map
        mkDupFile), ?_, ?_⟩
    · apply List.mem_filter.mpr
      refine ⟨hdsmem, ?_⟩
      simp only [decide_eq_true_eq, List.length_map]
      omega
    · rw [hsp]

theorem duplicatesFound_eq_nil_iff (files : List SvgFile) :
    duplicatesFound files = [] ↔
      ∀ f ∈ files,
        (files.filter (fun g => decide (splitNsIcon g.name = splitNsIcon f.name))).length ≤ 1 := by
  constructor
  · intro h f hf
    by_contra hc
    push_neg at hc
    have hmem := dup_mem_duplicatesFound files f hf (by omega)
    rw [h] at hmem
    cases hmem
  · intro h
    by_contra hne
    obtain ⟨d, hd⟩ := List.exists_mem_of_ne_nil _ hne
    unfold duplicatesFound at hd
    obtain ⟨⟨ns, m⟩, hgm, hd2⟩ := (mem_listFlatMap _ _ _).mp hd
    obtain ⟨⟨icon, ds⟩, hx, hdx⟩ := List.mem_map.mp hd2
    have hfil := List.mem_filter.mp hx
    have hlen : 1 < ds.length := by simpa using hfil.2
    have hwf := dupGroups_wf files
    have hg : findVal ns (dupGroups files) = some m := findVal_of_mem_nodup _ _ _ hwf.1 hgm
    have hm : findVal icon m = some ds := findVal_of_mem_nodup _ _ _ (hwf.2 _ hgm) hfil.1
    have hif : innerFind (dupGroups files) ns icon = some ds := by
      unfold innerFind
      rw [hg]
      simpa using hm
    rw [dupGroups_find] at hif
    by_cases hie : (files.filter (fun g => decide (splitNsIcon g.name = (ns, icon)))).isEmpty = true
    · rw [if_pos hie] at hif
      cases hif
    · rw [if_neg hie] at hif
      injection hif with hif
      have hfe : files.filter (fun g => decide (splitNsIcon g.name = (ns, icon))) ≠ [] := by
        intro hcon
        apply hie
        rw [hcon]
        rfl
      obtain ⟨f, hfmem⟩ := List.exists_mem_of_ne_nil _ hfe
      have hfin : f ∈ files := (List.mem_filter.mp hfmem).1
      have hfkey : splitNsIcon f.name = (ns, icon) := by
        simpa using (List.mem_filter.mp hfmem).2
      have hb := h f hfin
      have hpredeq : (fun g : SvgFile => decide (splitNsIcon g.name = splitNsIcon f.name)) =
          (fun g : SvgFile => decide (splitNsIcon g.name = (ns, icon))) := by
        funext g
        rw [hfkey]
      rw [hpredeq] at hb
      have hlds : ds.length =
          (files.filter (fun g => decide (splitNsIcon g.name = (ns, icon)))).length := by
        rw [← hif, List.length_map]
      omega

theorem checkForDuplicates_ok_iff (files : List SvgFile) :
    checkForDuplicates files = Except.ok () ↔
      ∀ f ∈ files,
        (files.filter (fun g => decide (splitNsIcon g.name = splitNsIcon f.name))).length ≤ 1 := by
  rw [← duplicatesFound_eq_nil_iff]
  unfold checkForDuplicates
  constructor
  · intro h
    by_cases hie : (duplicatesFound files).isEmpty = true
    · exact List.isEmpty_iff.mp hie
    · rw [if_neg hie] at h
      cases h
  · intro h
    rw [if_pos (List.isEmpty_iff.mpr h)]

theorem checkForDuplicates_error_elim (files : List SvgFile) (dups : List DupRec)
    (h : checkForDuplicates files = Except.error dups) : dups = duplicatesFound files := by
  unfold checkForDuplicates at h
  split at h
  · cases h
  · injection h with h
    exact h.symm

/-- C1: under the strict duplicate policy, the check succeeds exactly when no
two scanned entries share the same (namespace, iconId) pair after
normalization; on failure every offending namespace/iconId/originalName
triple is reported and the build aborts with the report before any sprite,
type listing or rename output is produced; entries in different namespaces
(such as `plus` at root and `sidebar:plus`) never collide. -/
theorem claim_C1 :
    (∀ files : List SvgFile,
      checkForDuplicates files = Except.ok () ↔
        ∀ f ∈ files,
          (files.filter (fun g => decide (splitNsIcon g.name = splitNsIcon f.name))).length ≤ 1) ∧
    (∀ files : List SvgFile, ∀ dups : List DupRec,
      checkForDuplicates files = Except.error dups →
        ∀ f ∈ files,
          2 ≤ (files.filter (fun g => decide (splitNsIcon g.name = splitNsIcon f.name))).length →
          ∃ d ∈ dups, d.nsLabel = dupNsLabel (splitNsIcon f.name).1 ∧
            d.iconName = (splitNsIcon f.name).2 ∧ f.originalName ∈ d.files) ∧
    (∀ root : List FsEntry, scanDir root [] [] [] ≠ [] →
      duplicatesFound (scanDir root [] [] []) ≠ [] →
      buildSprite root = Except.error (duplicatesFound (scanDir root [] [] []))) ∧
    checkForDuplicates
      [⟨"plus".data, "plus".data, ["plus.svg".data]⟩,
       ⟨"sidebar/plus".data, "sidebar:plus".data, ["sidebar".data, "plus.svg".data]⟩] =
      Except.ok () := by
  refine ⟨checkForDuplicates_ok_iff, ?_, ?_, by decide⟩
  · intro files dups herr f hf hcount
    have hdups := checkForDuplicates_error_elim files dups herr
    subst hdups
    refine ⟨_, dup_mem_duplicatesFound files f hf hcount, rfl, rfl, ?_⟩
    have hffilter :
        f ∈ files.filter (fun g => decide (splitNsIcon g.name = splitNsIcon f.name)) :=
      List.mem_filter.mpr ⟨hf, by simp⟩
    simp only [List.map_map]
    apply List.mem_map.mpr
    exact ⟨f, hffilter, rfl⟩
  · intro root h1 h2
    have hie : (scanDir root [] [] []).isEmpty = false := by
      cases hc : (scanDir root [] [] []).isEmpty
      · rfl
      · exact absurd (List.isEmpty_iff.mp hc) h1
    have hde : (duplicatesFound (scanDir root [] [] [])).isEmpty = false := by
      cases hc : (duplicatesFound (scanDir root [] [] [])).isEmpty
      · rfl
      · exact absurd (List.isEmpty_iff.mp hc) h2
    have hcd : checkForDuplicates (scanDir root [] [] []) =
        Except.error (duplicatesFound (scanDir root [] [] [])) := by
      unfold checkForDuplicates
      rw [hde]
      simp
    simp [buildSprite, hie, hcd]

/-- Witness for C1: the two-file tree `{SunMoon.svg, sun_moon.svg}` collides on
`sun-moon` at root and the build aborts with the duplicate report. -/
theorem claim_C1_witness :
    buildSprite [FsEntry.file "SunMoon.svg".data, FsEntry.file "sun_moon.svg".data] =
      Except.error (duplicatesFound
        (scanDir [FsEntry.file "SunMoon.svg".data, FsEntry.file "sun_moon.svg".data] [] [] [])) :=
  claim_C1.2.2.1 _ (by simp +decide [scanDir]) (by simp +decide [scanDir])

/-! ### Characterizing `groupByNamespace` -/

theorem findVal_foldl_group {K B A : Type} [DecidableEq K] (key : A → K) (item : A → B) :
    ∀ (as : List A) (g : List (K × List B)) (k : K),
      findVal k
        (as.foldl (fun g a => upsertWith (key a) (fun l => l ++ [item a]) [item a] g) g) =
      (as.filter (fun a => decide (key a = k))).foldl
        (fun o a => some (o.getD [] ++ [item a])) (findVal k g) := by
  intro as
  induction as with
  | nil => intro g k; rfl
  | cons a t ih =>
    intro g k
    simp only [List.foldl_cons, List.filter_cons]
    by_cases hk : key a = k
    · subst hk
      rw [ih]
      rw [findVal_upsert_self]
      cases hf : findVal (key a) g with
      | none => simp [hf]
      | some l => simp [hf]
    · rw [ih, findVal_upsert_ne _ _ _ _ (fun he => hk he.symm)]
      simp [hk]

theorem groupByNamespace_find (files : List SvgFile) (ns : List Char) :
    findVal ns (groupByNamespace files) =
      if (files.filter (fun f => decide ((splitNsIcon f.name).1 = ns))).isEmpty then none
      else some ((files.filter (fun f => decide ((splitNsIcon f.name).1 = ns))).map mkGrouped) := by
  unfold groupByNamespace
  rw [findVal_foldl_group (fun f => (splitNsIcon f.name).1) mkGrouped files [] ns]
  have h0 : findVal ns ([] : List (List Char × List GroupedIcon)) = none := rfl
  rw [h0, foldl_optAccum]
  split
  · rfl
  · simp

/-- C2 counterexample: for the nested tree `sidebar/nav/icon.svg`, the code
groups the icon under namespace `sidebar` (the part before the FIRST colon)
with iconId `nav:icon`, and the sprite document is `icons-sidebar.svg` — not
under namespace `sidebar:nav` with iconId `icon` and document
`icons-sidebar:nav` as the claim states. -/
theorem claim_C2_counterexample :
    (scanDir [FsEntry.dir "sidebar".data [FsEntry.dir "nav".data
        [FsEntry.file "icon.svg".data]]] [] [] []).map (fun f => f.name) =
      ["sidebar:nav:icon".data] ∧
    (groupByNamespace (scanDir [FsEntry.dir "sidebar".data [FsEntry.dir "nav".data
        [FsEntry.file "icon.svg".data]]] [] [] [])).map Prod.fst = ["sidebar".data] ∧
    (groupByNamespace (scanDir [FsEntry.dir "sidebar".data [FsEntry.dir "nav".data
        [FsEntry.file "icon.svg".data]]] [] [] [])).map
        (fun g => g.2.map (fun r => r.iconName)) = [["nav:icon".data]] ∧
    (buildSprite [FsEntry.dir "sidebar".data [FsEntry.dir "nav".data
        [FsEntry.file "icon.svg".data]]]).map (fun o => o.sprites.map Prod.fst) =
      Except.ok ["icons-sidebar.svg".data] ∧
    "sidebar".data ≠ "sidebar:nav".data ∧
    "nav:icon".data ≠ "icon".data ∧
    "icons-sidebar.svg".data ≠ ("icons-".data ++ "sidebar:nav".data ++ ".svg".data) := by
  refine ⟨?_, ?_, ?_, ?_, by decide, by decide, by decide⟩ <;>
    simp +decide [scanDir, buildSprite, treePaths]

/-- C2 (amended): grouping assigns every scanned file to the NamespaceGroup
keyed by the segment of its normalizedName before the FIRST colon (`default`
when there is no leading segment), its iconId is the remainder after that
first colon, and the combined document for a namespace `ns` is named
`icons-ns.svg`; in particular `sidebar/nav/icon.svg` is grouped under
`sidebar` with iconId `nav:icon` into `icons-sidebar.svg`. -/
theorem claim_C2_amended :
    (∀ (files : List SvgFile) (ns : List Char),
      findVal ns (groupByNamespace files) =
        if (files.filter (fun f => decide ((splitNsIcon f.name).1 = ns))).isEmpty then none
        else some ((files.filter
          (fun f => decide ((splitNsIcon f.name).1 = ns))).map mkGrouped)) ∧
    (∀ f : SvgFile, (mkGrouped f).iconName = (splitNsIcon f.name).2 ∧
      (mkGrouped f).fullName = f.name) ∧
    (groupByNamespace (scanDir [FsEntry.dir "sidebar".data [FsEntry.dir "nav".data
        [FsEntry.file "icon.svg".data]]] [] [] [])) =
      [("sidebar".data,
        [⟨"sidebar/nav/icon".data, "sidebar:nav:icon".data,
          ["sidebar".data, "nav".data, "icon.svg".data],
          "nav:icon".data, "sidebar:nav:icon".data⟩])] ∧
    spriteFileName "sidebar".data = "icons-sidebar.svg".data := by
  refine ⟨groupByNamespace_find, fun f => ⟨rfl, rfl⟩, ?_, by decide⟩
  simp +decide [scanDir]

/-! ### Order of the collected `allIconNames` (claim C9) -/

theorem flatMapVals_upsert {K B C : Type} [DecidableEq K] (h : B → C) (k : K) (b : B) :
    ∀ g : List (K × List B),
      List.Perm
        (listFlatMap (fun p => p.2.map h) (upsertWith k (fun l => l ++ [b]) [b] g))
        (listFlatMap (fun p => p.2.map h) g ++ [h b]) := by
  intro g
  induction g with
  | nil =>
    simp [upsertWith, listFlatMap]
  | cons p t ih =>
    obtain ⟨k', v⟩ := p
    by_cases hk : k' = k
    · subst hk
      simp only [upsertWith, if_pos rfl, listFlatMap, List.map_append]
      have hinner : List.Perm
          (List.map h [b] ++ listFlatMap (fun p => List.map h p.2) t)
          (listFlatMap (fun p => List.map h p.2) t ++ List.map h [b]) :=
        List.perm_append_comm
      have hall := List.Perm.append_left (List.map h v) hinner
      rw [← List.append_assoc] at hall
      simpa using hall
    · simp only [upsertWith, if_neg hk, listFlatMap]
      have hall := List.Perm.append_left (List.map h v) ih
      rw [← List.append_assoc] at hall
      exact hall

theorem namesOfGroups_foldl :
    ∀ (files : List SvgFile) (g : List (List Char × List GroupedIcon)),
      List.Perm
        (namesOfGroups (files.foldl
          (fun g f => upsertWith (splitNsIcon f.name).1
            (fun l => l ++ [mkGrouped f]) [mkGrouped f] g) g))
        (namesOfGroups g ++ files.map (fun f => f.name)) := by
  intro files
  induction files with
  | nil => intro g; simp
  | cons f t ih =>
    intro g
    rw [List.foldl_cons]
    refine (ih _).trans ?_
    have hup := flatMapVals_upsert (fun r : GroupedIcon => r.fullName)
      (splitNsIcon f.name).1 (mkGrouped f) g
    have hperm := List.Perm.append_right (t.map (fun f => f.name)) hup
    unfold namesOfGroups
    refine hperm.trans ?_
    rw [List.append_assoc]
    apply List.Perm.append_left
    simp [mkGrouped]

theorem namesOfGroups_perm (files : List SvgFile) :
    List.Perm (namesOfGroups (groupByNamespace files)) (files.map (fun f => f.name)) := by
  unfold groupByNamespace
  refine (namesOfGroups_foldl files []).trans ?_
  simp [namesOfGroups, listFlatMap]

theorem renameFiles_map_name :
    ∀ (files : List SvgFile) (fsp : List FsPath),
      (renameFilesToKebabCase files fsp).1.map (fun f => f.name) =
        files.map (fun f => f.name) := by
  intro files
  induction files with
  | nil => intro fsp; rfl
  | cons f t ih =>
    intro fsp
    unfold renameFilesToKebabCase
    dsimp only
    split
    · simp only [List.map_cons]
      rw [ih]
    · split
      · simp only [List.map_cons]
        rw [ih]
      · simp only [List.map_cons]
        rw [ih]

/-- C9 counterexample: for the tree `{a.svg, ns/x.svg, b.svg}` the discovery
(depth-first scan) order is `a, ns:x, b`, but the emitted name list is the
namespace-grouped order `a, b, ns:x` — the type listing is NOT in discovery
order as the claim states. -/
theorem claim_C9_counterexample :
    (buildSprite [FsEntry.file "a.svg".data,
        FsEntry.dir "ns".data [FsEntry.file "x.svg".data],
        FsEntry.file "b.svg".data]).map (fun o => o.typeNames) =
      Except.ok ["a".data, "b".data, "ns:x".data] ∧
    (scanDir [FsEntry.file "a.svg".data,
        FsEntry.dir "ns".data [FsEntry.file "x.svg".data],
        FsEntry.file "b.svg".data] [] [] []).map (fun f => f.name) =
      ["a".data, "ns:x".data, "b".data] ∧
    (["a".data, "b".data, "ns:x".data] : List (List Char)) ≠
      ["a".data, "ns:x".data, "b".data] := by
  refine ⟨?_, ?_, by decide⟩ <;> simp +decide [buildSprite, scanDir, treePaths]

/-- C9 (amended): for every successful build the type listing enumerates
exactly the multiset of normalizedNames of the discovered icons — namespaces
in order of first appearance, icons inside a namespace in discovery order — a
permutation of (not in general equal to) the depth-first discovery order; the
generated bodies are built from exactly that name list, and with zero icons
the emitted type body is the uninhabited `  never` and the runtime name list
is empty. -/
theorem claim_C9_amended :
    (∀ (root : List FsEntry) (out : BuildOutput), buildSprite root = Except.ok out →
      List.Perm out.typeNames ((scanDir root [] [] []).map (fun f => f.name)) ∧
      out.typeDefs = generateTypeDefinitions out.typeNames) ∧
    generateTypeDefinitions [] = ⟨"  never".data, []⟩ := by
  refine ⟨?_, by decide⟩
  intro root out h
  unfold buildSprite at h
  dsimp only at h
  by_cases hie : (scanDir root [] [] []).isEmpty = true
  · rw [if_pos hie] at h
    injection h with h
    subst h
    constructor
    · simp [List.isEmpty_iff.mp hie]
    · rfl
  · rw [if_neg hie] at h
    cases hcd : checkForDuplicates (scanDir root [] [] []) with
    | error d =>
      rw [hcd] at h
      cases h
    | ok u =>
      rw [hcd] at h
      cases u
      injection h with h
      subst h
      constructor
      · dsimp only
        refine (namesOfGroups_perm _).trans ?_
        rw [renameFiles_map_name]
      · rfl

/-- Witness for C9 (amended): the permutation claim applied to the concrete
mixed tree `{a.svg, ns/x.svg, b.svg}`. -/
theorem claim_C9_amended_witness :
    List.Perm (["a".data, "b".data, "ns:x".data] : List (List Char))
      ((scanDir [FsEntry.file "a.svg".data,
        FsEntry.dir "ns".data [FsEntry.file "x.svg".data],
        FsEntry.file "b.svg".data] [] [] []).map (fun f => f.name)) := by
  have hbuild : buildSprite [FsEntry.file "a.svg".data,
      FsEntry.dir "ns".data [FsEntry.file "x.svg".data],
      FsEntry.file "b.svg".data] = Except.ok
      ⟨[⟨"a".data, "a".data, ["a.svg".data]⟩,
        ⟨"ns/x".data, "ns:x".data, ["ns".data, "x.svg".data]⟩,
        ⟨"b".data, "b".data, ["b.svg".data]⟩],
       [("icons-sprite.svg".data, ["a".data, "b".data]),
        ("icons-ns.svg".data, ["x".data])],
       ["a".data, "b".data, "ns:x".data],
       generateTypeDefinitions ["a".data, "b".data, "ns:x".data]⟩ := by
    simp +decide [buildSprite, scanDir, treePaths]
  exact (claim_C9_amended.1 _ _ hbuild).1

/-! ### The rename step (claim C10) -/

theorem renameFiles_forall2 :
    ∀ (files : List SvgFile) (fsp : List FsPath),
      List.Forall₂ (fun out inp : SvgFile =>
        out.originalName = inp.originalName ∧ out.name = inp.name ∧
        (out.path = inp.path ∨
          out.path = inp.path.dropLast ++ [afterLastColon inp.name ++ svgExt]) ∧
        (stripSvgExt ((inp.path.getLast?).getD []) = afterLastColon inp.name → out = inp))
      (renameFilesToKebabCase files fsp).1 files := by
  intro files
  induction files with
  | nil => intro fsp; exact List.Forall₂.nil
  | cons f t ih =>
    intro fsp
    unfold renameFilesToKebabCase
    dsimp only
    split
    · rename_i heq
      exact List.Forall₂.cons ⟨rfl, rfl, Or.inl rfl, fun _ => rfl⟩ (ih fsp)
    · rename_i hne
      split
      · exact List.Forall₂.cons
          ⟨rfl, rfl, Or.inl rfl, fun hcon => absurd hcon hne⟩ (ih fsp)
      · exact List.Forall₂.cons
          ⟨rfl, rfl, Or.inr rfl, fun hcon => absurd hcon hne⟩ (ih _)

theorem renameFiles_length (files : List SvgFile) (fsp : List FsPath) :
    (renameFilesToKebabCase files fsp).1.length = files.length :=
  (renameFiles_forall2 files fsp).length_eq

theorem renameFiles_step (f : SvgFile) (t : List SvgFile) (fsp : List FsPath) :
    renameFilesToKebabCase (f :: t) fsp =
      if stripSvgExt ((f.path.getLast?).getD []) = afterLastColon f.name then
        (f :: (renameFilesToKebabCase t fsp).1, (renameFilesToKebabCase t fsp).2)
      else if f.path.dropLast ++ [afterLastColon f.name ++ svgExt] ∈ fsp then
        (f :: (renameFilesToKebabCase t fsp).1, (renameFilesToKebabCase t fsp).2)
      else
        ({ f with path := f.path.dropLast ++ [afterLastColon f.name ++ svgExt] } ::
          (renameFilesToKebabCase t
            (removePath fsp f.path ++
              [f.path.dropLast ++ [afterLastColon f.name ++ svgExt]])).1,
         (renameFilesToKebabCase t
           (removePath fsp f.path ++
             [f.path.dropLast ++ [afterLastColon f.name ++ svgExt]])).2) := by
  conv_lhs => unfold renameFilesToKebabCase

/-- C10: after the duplicate check succeeds the build renames sources: each
scanned file whose on-disk base name differs from its normalized icon id (the
segment of its name after the last colon) is renamed to `<iconId>.svg` in its
own directory, unless a file already exists at the target path, in which case
the original is kept; the returned list always has the same length and order
as the input, preserving each entry's `originalName` and `name`; a successful
build's file list is exactly the rename step applied to the scanned files. -/
theorem claim_C10 :
    (∀ (files : List SvgFile) (fsp : List FsPath),
      List.Forall₂ (fun out inp : SvgFile =>
        out.originalName = inp.originalName ∧ out.name = inp.name ∧
        (out.path = inp.path ∨
          out.path = inp.path.dropLast ++ [afterLastColon inp.name ++ svgExt]) ∧
        (stripSvgExt ((inp.path.getLast?).getD []) = afterLastColon inp.name → out = inp))
      (renameFilesToKebabCase files fsp).1 files) ∧
    (∀ (files : List SvgFile) (fsp : List FsPath),
      (renameFilesToKebabCase files fsp).1.length = files.length) ∧
    (∀ (f : SvgFile) (t : List SvgFile) (fsp : List FsPath),
      renameFilesToKebabCase (f :: t) fsp =
        if stripSvgExt ((f.path.getLast?).getD []) = afterLastColon f.name then
          (f :: (renameFilesToKebabCase t fsp).1, (renameFilesToKebabCase t fsp).2)
        else if f.path.dropLast ++ [afterLastColon f.name ++ svgExt] ∈ fsp then
          (f :: (renameFilesToKebabCase t fsp).1, (renameFilesToKebabCase t fsp).2)
        else
          ({ f with path := f.path.dropLast ++ [afterLastColon f.name ++ svgExt] } ::
            (renameFilesToKebabCase t
              (removePath fsp f.path ++
                [f.path.dropLast ++ [afterLastColon f.name ++ svgExt]])).1,
           (renameFilesToKebabCase t
             (removePath fsp f.path ++
               [f.path.dropLast ++ [afterLastColon f.name ++ svgExt]])).2)) ∧
    (∀ (root : List FsEntry) (out : BuildOutput), buildSprite root = Except.ok out →
      out.renamedFiles =
          (renameFilesToKebabCase (scanDir root [] [] []) (treePaths root [])).1 ∨
        (scanDir root [] [] [] = [] ∧ out.renamedFiles = [])) := by
  refine ⟨renameFiles_forall2, renameFiles_length, renameFiles_step, ?_⟩
  intro root out h
  unfold buildSprite at h
  dsimp only at h
  by_cases hie : (scanDir root [] [] []).isEmpty = true
  · rw [if_pos hie] at h
    injection h with h
    subst h
    exact Or.inr ⟨List.isEmpty_iff.mp hie, rfl⟩
  · rw [if_neg hie] at h
    cases hcd : checkForDuplicates (scanDir root [] [] []) with
    | error d =>
      rw [hcd] at h
      cases h
    | ok u =>
      rw [hcd] at h
      cases u
      injection h with h
      subst h
      exact Or.inl rfl

/-- Witness for C10: building the single-file tree `{SunMoon.svg}` renames the
source to `sun-moon.svg`, and the build's file list is the rename output. -/
theorem claim_C10_witness :
    (⟨[⟨"SunMoon".data, "sun-moon".data, ["sun-moon.svg".data]⟩],
      [("icons-sprite.svg".data, ["sun-moon".data])],
      ["sun-moon".data],
      generateTypeDefinitions ["sun-moon".data]⟩ : BuildOutput).renamedFiles =
        (renameFilesToKebabCase (scanDir [FsEntry.file "SunMoon.svg".data] [] [] [])
          (treePaths [FsEntry.file "SunMoon.svg".data] [])).1 ∨
      (scanDir [FsEntry.file "SunMoon.svg".data] [] [] [] = [] ∧
        (⟨[⟨"SunMoon".data, "sun-moon".data, ["sun-moon.svg".data]⟩],
          [("icons-sprite.svg".data, ["sun-moon".data])],
          ["sun-moon".data],
          generateTypeDefinitions ["sun-moon".data]⟩ : BuildOutput).renamedFiles = []) := by
  apply claim_C10.2.2.2
  simp +decide [buildSprite, scanDir, treePaths]

/-- C4: `normalizeIconName` signals an error exactly on the empty string and
otherwise totally applies the seven-step pipeline (collapse whitespace runs,
whitespace to hyphens, camel-case split, underscores to hyphens, lowercase,
collapse hyphen runs, strip edge hyphens, in that order — the definition of
`normalizeBody`); it sends `sunMoon`, `SunMoon`, `sun_moon`, `sun  moon` and
`sun-moon` all to `sun-moon`. -/
theorem claim_C4 :
    (∀ l : List Char, normalizeIconName l =
      if l = [] then Except.error invalidNameMsg else Except.ok (normalizeBody l)) ∧
    normalizeIconName "sunMoon".data = Except.ok "sun-moon".data ∧
    normalizeIconName "SunMoon".data = Except.ok "sun-moon".data ∧
    normalizeIconName "sun_moon".data = Except.ok "sun-moon".data ∧
    normalizeIconName "sun  moon".data = Except.ok "sun-moon".data ∧
    normalizeIconName "sun-moon".data = Except.ok "sun-moon".data := by
  refine ⟨?_, by decide, by decide, by decide, by decide, by decide⟩
  intro l
  unfold normalizeIconName
  cases l with
  | nil => rfl
  | cons a t => simp

/-- C5 counterexample: normalization is not idempotent at the level of the
throwing `normalizeIconName`: the printable non-empty input `_` normalizes to
the empty string, on which a second application signals the
`InvalidNameError` instead of returning the same value. -/
theorem claim_C5_counterexample :
    normalizeIconName ['_'] = Except.ok [] ∧
    normalizeIconName [] = Except.error invalidNameMsg ∧
    (normalizeIconName ['_']).bind normalizeIconName ≠ normalizeIconName ['_'] := by
  decide

/-- C5 (amended): the normalization pipeline without the empty-input guard is
idempotent on every string: `normalizeBody (normalizeBody x) = normalizeBody
x`; applying the throwing `normalizeIconName` twice agrees with applying it
once exactly when the first result is non-empty. -/
theorem claim_C5_amended :
    ∀ l : List Char, normalizeBody (normalizeBody l) = normalizeBody l :=
  normalizeBody_idem

/-! ### The scanner invariant (claim C6) -/

theorem isOutChar_iff (c : Char) : isOutChar c = true ↔
    (97 ≤ c.toNat ∧ c.toNat ≤ 122) ∨ (48 ≤ c.toNat ∧ c.toNat ≤ 57) ∨ c.toNat = 45 := by
  have h45 : (c = '-') ↔ c.toNat = 45 := char_eq_iff_toNat c '-'
  simp [isOutChar, char_le_iff_toNat, h45]
  tauto

theorem allowedInChar_iff (c : Char) : allowedInChar c = true ↔
    (97 ≤ c.toNat ∧ c.toNat ≤ 122) ∨ (65 ≤ c.toNat ∧ c.toNat ≤ 90) ∨
    (48 ≤ c.toNat ∧ c.toNat ≤ 57) ∨ c.toNat = 45 ∨ c.toNat = 95 ∨
    jsWhitespace c = true := by
  have h45 : (c = '-') ↔ c.toNat = 45 := char_eq_iff_toNat c '-'
  have h95 : (c = '_') ↔ c.toNat = 95 := char_eq_iff_toNat c '_'
  simp [allowedInChar, char_le_iff_toNat, h45, h95]
  tauto

theorem isOutChar_toLower_of_allowed (d : Char) (ha : allowedInChar d = true)
    (hw : jsWhitespace d = false) (hu : d ≠ '_') : isOutChar (Char.toLower d) = true := by
  have h95 : d.toNat ≠ 95 := fun hh => hu ((char_eq_iff_toNat d '_').mpr hh)
  rcases (allowedInChar_iff d).mp ha with h | h | h | h | h | h
  · rw [toLower_eq_self d (by omega)]
    exact (isOutChar_iff d).mpr (Or.inl h)
  · apply (isOutChar_iff _).mpr
    left
    rw [toLower_toNat_of_upper d h.1 h.2]
    omega
  · rw [toLower_eq_self d (by omega)]
    exact (isOutChar_iff d).mpr (Or.inr (Or.inl h))
  · rw [toLower_eq_self d (by omega)]
    exact (isOutChar_iff d).mpr (Or.inr (Or.inr h))
  · exact absurd h h95
  · rw [hw] at h
    cases h

theorem normalizeBody_out_of_allowed (l : List Char)
    (ha : ∀ c ∈ l, allowedInChar c = true) :
    ∀ c ∈ normalizeBody l, isOutChar c = true := by
  intro c hc
  rcases mem_normalizeBody c l hc with h | ⟨d, hd, hdw, hdu, heq⟩
  · subst h
    decide
  · subst heq
    exact isOutChar_toLower_of_allowed d (ha d hd) hdw hdu

theorem normalizeBody_segOk (l : List Char)
    (ha : ∀ c ∈ l, allowedInChar c = true) (hne : normalizeBody l ≠ []) :
    segOk (normalizeBody l) :=
  ⟨hne, normalizeBody_out_of_allowed l ha, head_normalizeBody_ne l,
    getLast?_normalizeBody_ne l⟩

theorem isOutChar_ne_colon (c : Char) (h : isOutChar c = true) : c ≠ ':' := by
  intro he
  subst he
  cases h

theorem splitColon_no_colon (s : List Char) (h : ∀ c ∈ s, c ≠ ':') :
    splitColon s = [s] := by
  induction s with
  | nil => rfl
  | cons c t ih =>
    have ht : splitColon t = [t] := ih fun c hc => h c (List.mem_cons_of_mem _ hc)
    simp only [splitColon, ht]
    rw [if_neg (h c (List.mem_cons_self c t))]

theorem splitColon_ne_nil (l : List Char) : splitColon l ≠ [] := by
  cases l with
  | nil => simp [splitColon]
  | cons c t =>
    simp only [splitColon]
    cases hs : splitColon t with
    | nil => simp
    | cons s rest =>
      by_cases hc : c = ':' <;> simp [hc]

theorem splitColon_append (a b : List Char) :
    splitColon (a ++ ':' :: b) = splitColon a ++ splitColon b := by
  induction a with
  | nil =>
    simp only [List.nil_append, splitColon]
    cases hs : splitColon b with
    | nil => exact absurd hs (splitColon_ne_nil b)
    | cons s rest => simp [splitColon]
  | cons c a' ih =>
    simp only [List.cons_append, splitColon, ih]
    cases hs : splitColon a' with
    | nil => exact absurd hs (splitColon_ne_nil a')
    | cons s rest =>
      simp only [List.append_eq, ih, hs]
      by_cases hc : c = ':' <;> simp [hc]

theorem segOk_nameOk (s : List Char) (h : segOk s) : nameOk s := by
  obtain ⟨h1, h2, h3, h4⟩ := h
  refine ⟨h1, fun c hc => Or.inl (h2 c hc), h3, h4, ?_⟩
  rw [splitColon_no_colon s (fun c hc => isOutChar_ne_colon c (h2 c hc))]
  intro x hx
  rw [List.mem_singleton] at hx
  subst hx
  exact ⟨h1, h2⟩

theorem nameOk_append (a s : List Char) (hn : nameOk a) (hs : segOk s) :
    nameOk (a ++ ':' :: s) := by
  obtain ⟨a1, a2, a3, a4, a5⟩ := hn
  obtain ⟨s1, s2, s3, s4⟩ := hs
  refine ⟨by simp, ?_, ?_, ?_, ?_⟩
  · intro c hc
    rw [List.mem_append, List.mem_cons] at hc
    rcases hc with hc | hc | hc
    · exact a2 c hc
    · exact Or.inr hc
    · exact Or.inl (s2 c hc)
  · rw [List.head?_append_of_ne_nil _ a1]
    exact a3
  · rw [List.getLast?_append_of_ne_nil _ (by simp)]
    cases s with
    | nil => exact absurd rfl s1
    | cons c t =>
      rw [List.getLast?_cons_cons]
      exact s4
  · rw [splitColon_append]
    intro x hx
    rw [List.mem_append] at hx
    rcases hx with hx | hx
    · exact a5 x hx
    · rw [splitColon_no_colon s (fun c hc => isOutChar_ne_colon c (s2 c hc))] at hx
      rw [List.mem_singleton] at hx
      subst hx
      exact ⟨s1, s2⟩

theorem goodIconName_of_nameOk (l : List Char) (h : nameOk l) : goodIconName l = true := by
  obtain ⟨h1, h2, h3, h4, h5⟩ := h
  unfold goodIconName
  simp only [Bool.and_eq_true, List.all_eq_true, decide_eq_true_eq]
  refine ⟨⟨⟨⟨?_, ?_⟩, h3⟩, h4⟩, ?_⟩
  · simp only [Bool.not_eq_true', List.isEmpty_eq_false]
    exact h1
  · intro c hc
    rcases h2 c hc with hh | hh
    · simp [hh]
    · simp [hh]
  · intro s hs
    obtain ⟨hs1, hs2⟩ := h5 s hs
    constructor
    · simp only [Bool.not_eq_true', List.isEmpty_eq_false]
      exact hs1
    · exact hs2

theorem scanDir_nameOk :
    ∀ (entries : List FsEntry) (nsv onsv : List Char) (cur : FsPath),
      entriesOk entries = true → (nsv = [] ∨ nameOk nsv) →
      ∀ e ∈ scanDir entries nsv onsv cur, nameOk e.name := by
  intro entries nsv onsv cur
  induction entries, nsv, onsv, cur using scanDir.induct with
  | case1 nsv onsv cur =>
    intro _ _ e he
    simp [scanDir] at he
  | case2 nm rest nsv onsv cur ih =>
    intro hok hns e he
    rw [entriesOk, Bool.and_eq_true] at hok
    obtain ⟨hf, hrest⟩ := hok
    rw [scanDir, List.mem_append] at he
    rcases he with he | he
    · split at he
      · rename_i hsvg
        rw [List.mem_singleton] at he
        subst he
        rw [entryOk] at hf
        rw [hsvg] at hf
        simp only [Bool.not_true, Bool.false_or, Bool.and_eq_true, List.all_eq_true,
          Bool.not_eq_true', List.isEmpty_eq_false] at hf
        have hseg : segOk (normalizeBody (stripSvgExt nm)) :=
          normalizeBody_segOk _ hf.1 hf.2
        dsimp only
        cases hnsv : nsv with
        | nil =>
          simp only [List.isEmpty_nil, if_pos rfl]
          exact segOk_nameOk _ hseg
        | cons a t =>
          simp only [List.isEmpty_cons, Bool.false_eq_true, if_false]
          rcases hns with hcon | hns
          · rw [hnsv] at hcon
            cases hcon
          · rw [hnsv] at hns
            exact nameOk_append _ _ hns hseg
      · cases he
    · exact ih hrest hns e he
  | case3 nm children rest nsv onsv cur ihc ihr =>
    intro hok hns e he
    rw [entriesOk, Bool.and_eq_true] at hok
    obtain ⟨hd, hrest⟩ := hok
    rw [entryOk] at hd
    simp only [Bool.and_eq_true, List.all_eq_true, Bool.not_eq_true',
      List.isEmpty_eq_false] at hd
    obtain ⟨⟨hall, hne⟩, hch⟩ := hd
    have hseg : segOk (normalizeBody nm) := normalizeBody_segOk _ hall hne
    rw [scanDir, List.mem_append] at he
    rcases he with he | he
    · refine ihc hch ?_ e he
      right
      cases hnsv : nsv with
      | nil =>
        simp only [List.isEmpty_nil, if_pos rfl]
        exact segOk_nameOk _ hseg
      | cons a t =>
        simp only [List.isEmpty_cons, Bool.false_eq_true, if_false]
        rcases hns with hcon | hns
        · rw [hnsv] at hcon
          cases hcon
        · rw [hnsv] at hns
          exact nameOk_append _ _ hns hseg
    · exact ihr hrest hns e he

/-- C6 counterexample: a file named `a.b.svg` at the root yields the
normalizedName `a.b`, which contains a dot — the scanner invariant claimed for
EVERY directory tree fails. -/
theorem claim_C6_counterexample :
    (scanDir [FsEntry.file "a.b.svg".data] [] [] []).map (fun f => f.name) = ["a.b".data] ∧
    goodIconName "a.b".data = false := by
  refine ⟨?_, by decide⟩
  simp +decide [scanDir]

/-- C6 (amended): for every directory tree whose folder names and `.svg` base
names consist only of ASCII letters, digits, hyphens, underscores and
whitespace and normalize to something non-empty, every IconEntry produced by
the scanner has a normalizedName that is non-empty, contains only lowercase
letters, digits, hyphens and colons, has no leading or trailing hyphen, and
has no empty segment between colons. -/
theorem claim_C6_amended (entries : List FsEntry) (hok : entriesOk entries = true) :
    ∀ e ∈ scanDir entries [] [] [], goodIconName e.name = true := by
  intro e he
  exact goodIconName_of_nameOk _ (scanDir_nameOk entries [] [] [] hok (Or.inl rfl) e he)

/-- Witness for C6 (amended): the tree `Social Media/FacebookIcon.svg`
produces the single well-formed name `social-media:facebook-icon`. -/
theorem claim_C6_amended_witness :
    goodIconName "social-media:facebook-icon".data = true := by
  have hmem : (⟨"Social Media/FacebookIcon".data, "social-media:facebook-icon".data,
      ["Social Media".data, "FacebookIcon.svg".data]⟩ : SvgFile) ∈
      scanDir [FsEntry.dir "Social Media".data [FsEntry.file "FacebookIcon.svg".data]]
        [] [] [] := by
    simp +decide [scanDir]
  exact claim_C6_amended
    [FsEntry.dir "Social Media".data [FsEntry.file "FacebookIcon.svg".data]]
    (by decide) _ hmem

/-! ### Loader lemmas (claims C3, C7, C8) -/

theorem eraseKey_sublist {K V : Type} [DecidableEq K] (k : K) :
    ∀ l : List (K × V), List.Sublist (eraseKey l k) l := by
  intro l
  induction l with
  | nil => exact List.Sublist.refl []
  | cons p t ih =>
    obtain ⟨k', v⟩ := p
    simp only [eraseKey]
    split
    · exact ih.cons _
    · exact ih.cons₂ _

theorem mem_eraseKey {K V : Type} [DecidableEq K] (k : K) (p : K × V) :
    ∀ l : List (K × V), p ∈ eraseKey l k → p ∈ l ∧ p.1 ≠ k := by
  intro l
  induction l with
  | nil => intro h; cases h
  | cons q t ih =>
    obtain ⟨k', v⟩ := q
    intro h
    simp only [eraseKey] at h
    split at h
    · rename_i he
      obtain ⟨h1, h2⟩ := ih h
      exact ⟨List.mem_cons_of_mem _ h1, h2⟩
    · rename_i he
      rw [List.mem_cons] at h
      rcases h with h | h
      · subst h
        exact ⟨List.mem_cons_self _ _, he⟩
      · obtain ⟨h1, h2⟩ := ih h
        exact ⟨List.mem_cons_of_mem _ h1, h2⟩

theorem findVal_eraseKey_ne {K V : Type} [DecidableEq K] (k k' : K) (hne : k' ≠ k) :
    ∀ l : List (K × V), findVal k' (eraseKey l k) = findVal k' l := by
  intro l
  induction l with
  | nil => rfl
  | cons q t ih =>
    obtain ⟨k'', v⟩ := q
    simp only [eraseKey, findVal]
    split
    · rename_i he
      rw [ih, if_neg (by rw [he]; exact fun hh => hne hh.symm)]
    · simp only [findVal]
      split
      · rfl
      · exact ih

theorem findVal_eraseKey_self {K V : Type} [DecidableEq K] (k : K) :
    ∀ l : List (K × V), findVal k (eraseKey l k) = none := by
  intro l
  induction l with
  | nil => rfl
  | cons q t ih =>
    obtain ⟨k'', v⟩ := q
    simp only [eraseKey]
    split
    · exact ih
    · rename_i he
      simp only [findVal, if_neg he]
      exact ih

theorem injectSprite_fields (s : LoaderState) (ns c : List Char) :
    (injectSprite s ns c).pending = s.pending ∧
    (injectSprite s ns c).spriteCache = s.spriteCache ∧
    (injectSprite s ns c).nextId = s.nextId ∧
    (injectSprite s ns c).fetchLog = s.fetchLog ∧
    (injectSprite s ns c).session = s.session := by
  unfold injectSprite
  split <;> exact ⟨rfl, rfl, rfl, rfl, rfl⟩

theorem injectSprite_invalid (s : LoaderState) (ns c : List Char)
    (h : isValidSvgContent c = false) : injectSprite s ns c = s := by
  unfold injectSprite
  rw [h]
  simp

theorem loadFromSessionStorage_fields (s : LoaderState) (ns : List Char) :
    (loadFromSessionStorage s ns).1.pending = s.pending ∧
    (loadFromSessionStorage s ns).1.spriteCache = s.spriteCache ∧
    (loadFromSessionStorage s ns).1.nextId = s.nextId ∧
    (loadFromSessionStorage s ns).1.fetchLog = s.fetchLog ∧
    (loadFromSessionStorage s ns).1.dom = s.dom := by
  refine ⟨?_, ?_, ?_, ?_, ?_⟩ <;>
  · unfold loadFromSessionStorage
    dsimp only
    split
    · rfl
    · split <;> rfl

theorem saveToSessionStorage_fields (s : LoaderState) (ns c : List Char) :
    (saveToSessionStorage s ns c).pending = s.pending ∧
    (saveToSessionStorage s ns c).spriteCache = s.spriteCache ∧
    (saveToSessionStorage s ns c).nextId = s.nextId ∧
    (saveToSessionStorage s ns c).fetchLog = s.fetchLog ∧
    (saveToSessionStorage s ns c).dom = s.dom :=
  ⟨rfl, rfl, rfl, rfl, rfl⟩

/-- Transfer of the loader invariant along equal pending/cache/counter. -/
theorem WfLoader_transfer (s s' : LoaderState) (hp : s'.pending = s.pending)
    (hc : s'.spriteCache = s.spriteCache) (hn : s'.nextId = s.nextId)
    (h : WfLoader s) : WfLoader s' := by
  obtain ⟨h1, h2, h3, h4⟩ := h
  exact ⟨hp ▸ h1, fun p hp' => hn ▸ h2 p (hp ▸ hp'),
    fun p hp' => hc ▸ h3 p (hp ▸ hp'),
    fun p hp' q hq' => h4 p (hp ▸ hp') q (hp ▸ hq')⟩

theorem countP_key_le_one {A : Type} [DecidableEq A] (ns : A) :
    ∀ l : List (Nat × A), (l.map Prod.fst).Nodup →
      (∀ p ∈ l, ∀ q ∈ l, p.2 = q.2 → p.1 = q.1) →
      l.countP (fun p => decide (p.2 = ns)) ≤ 1 := by
  intro l
  induction l with
  | nil => intro _ _; simp
  | cons p t ih =>
    intro hnd huniq
    rw [List.map_cons] at hnd
    have hnd' := List.nodup_cons.mp hnd
    rw [List.countP_cons]
    by_cases hp : p.2 = ns
    · have htail : t.countP (fun q => decide (q.2 = ns)) = 0 := by
        rw [List.countP_eq_zero]
        intro q hq
        simp only [decide_eq_true_eq]
        intro hq2
        have heq := huniq q (List.mem_cons_of_mem p hq) p (List.mem_cons_self p t)
          (by rw [hq2, hp])
        apply hnd'.1
        rw [← heq]
        exact List.mem_map_of_mem Prod.fst hq
      simp [hp, htail]
    · have hih := ih hnd'.2 (fun a ha b hb => huniq a (List.mem_cons_of_mem p ha) b
        (List.mem_cons_of_mem p hb))
      simp [hp]
      omega

theorem pendingCount_le_one (s : LoaderState) (hw : WfLoader s) (ns : List Char) :
    pendingCount s ns ≤ 1 := by
  obtain ⟨hnd, _, _, huniq⟩ := hw
  exact countP_key_le_one ns s.pending hnd huniq

theorem no_pending_of_cache_none (s : LoaderState) (ns : List Char) (hw : WfLoader s)
    (h : findVal ns s.spriteCache = none) : ∀ p ∈ s.pending, p.2 ≠ ns := by
  intro p hp he
  have hx := hw.2.2.1 p hp
  rw [he, h] at hx
  cases hx

theorem no_pending_of_promise_none (s : LoaderState) (ns : List Char) (c : CacheEntry)
    (hw : WfLoader s) (h : findVal ns s.spriteCache = some c) (hpr : c.promise = none) :
    ∀ p ∈ s.pending, p.2 ≠ ns := by
  intro p hp he
  have hx := hw.2.2.1 p hp
  rw [he, h] at hx
  injection hx with hx
  rw [hx] at hpr
  simp at hpr

theorem Wf_upsertCache (s : LoaderState) (ns : List Char) (e : CacheEntry)
    (hw : WfLoader s) (hp : ∀ p ∈ s.pending, p.2 ≠ ns) :
    WfLoader { s with spriteCache := upsertWith ns (fun _ => e) e s.spriteCache } := by
  obtain ⟨h1, h2, h3, h4⟩ := hw
  refine ⟨h1, h2, ?_, h4⟩
  intro p hpm
  rw [findVal_upsert_ne _ _ _ _ (hp p hpm)]
  exact h3 p hpm

theorem Wf_startFetch (s : LoaderState) (ns : List Char)
    (hw : WfLoader s) (hp : ∀ p ∈ s.pending, p.2 ≠ ns) :
    WfLoader (startFetch s ns).1 := by
  obtain ⟨h1, h2, h3, h4⟩ := hw
  unfold startFetch
  refine ⟨?_, ?_, ?_, ?_⟩
  · dsimp only
    rw [List.map_append, List.nodup_append]
    refine ⟨h1, by simp, ?_⟩
    intro a ha hb
    simp only [List.map_cons, List.map_nil, List.mem_singleton] at hb
    subst hb
    rw [List.mem_map] at ha
    obtain ⟨p, hpm, hpa⟩ := ha
    have := h2 p hpm
    omega
  · intro p hpm
    dsimp only at hpm ⊢
    rw [List.mem_append, List.mem_singleton] at hpm
    rcases hpm with hpm | hpm
    · have := h2 p hpm
      omega
    · subst hpm
      omega
  · intro p hpm
    dsimp only at hpm ⊢
    rw [List.mem_append, List.mem_singleton] at hpm
    rcases hpm with hpm | hpm
    · rw [findVal_upsert_ne _ _ _ _ (hp p hpm)]
      exact h3 p hpm
    · subst hpm
      rw [findVal_upsert_self]
      cases findVal ns s.spriteCache <;> rfl
  · intro p hpm q hqm
    dsimp only at hpm hqm
    rw [List.mem_append, List.mem_singleton] at hpm hqm
    rcases hpm with hpm | hpm <;> rcases hqm with hqm | hqm
    · exact h4 p hpm q hqm
    · subst hqm
      intro he
      exact absurd he (hp p hpm)
    · subst hpm
      intro he
      exact absurd he.symm (hp q hqm)
    · subst hpm
      subst hqm
      intro _
      rfl

theorem Wf_sessionLoadPath (s : LoaderState) (ns : List Char)
    (hw : WfLoader s) (hp : ∀ p ∈ s.pending, p.2 ≠ ns) :
    WfLoader (sessionLoadPath s ns).1 := by
  have hf := loadFromSessionStorage_fields s ns
  have hw' : WfLoader (loadFromSessionStorage s ns).1 :=
    WfLoader_transfer _ _ hf.1 hf.2.1 hf.2.2.1 hw
  have hp' : ∀ p ∈ (loadFromSessionStorage s ns).1.pending, p.2 ≠ ns := by
    rw [hf.1]
    exact hp
  unfold sessionLoadPath
  dsimp only
  cases hr : (loadFromSessionStorage s ns).2 with
  | none => exact Wf_startFetch _ _ hw' hp'
  | some content =>
    dsimp only
    split
    · exact Wf_startFetch _ _ hw' hp'
    · have hup := Wf_upsertCache (loadFromSessionStorage s ns).1 ns
        ⟨spriteVersion, content, none⟩ hw' hp'
      have hif := injectSprite_fields
        { (loadFromSessionStorage s ns).1 with
          spriteCache := upsertWith ns (fun _ => ⟨spriteVersion, content, none⟩)
            ⟨spriteVersion, content, none⟩ (loadFromSessionStorage s ns).1.spriteCache }
        ns content
      exact WfLoader_transfer _ _ hif.1 hif.2.1 hif.2.2.1 hup

theorem Wf_loadSpriteStep (s : LoaderState) (ns : List Char) (hw : WfLoader s) :
    WfLoader (loadSpriteStep s ns).1 := by
  unfold loadSpriteStep
  cases hc : findVal ns s.spriteCache with
  | none =>
    exact Wf_sessionLoadPath s ns hw (no_pending_of_cache_none s ns hw hc)
  | some c =>
    dsimp only
    cases hpr : c.promise with
    | some id =>
      dsimp only
      exact hw
    | none =>
      dsimp only
      split
      · have hif := injectSprite_fields s ns c.content
        exact WfLoader_transfer _ _ hif.1 hif.2.1 hif.2.2.1 hw
      · exact Wf_sessionLoadPath s ns hw (no_pending_of_promise_none s ns c hw hc hpr)

theorem Wf_completeFetchOk (s : LoaderState) (id : Nat) (c : List Char)
    (hw : WfLoader s) : WfLoader (completeFetchOk s id c) := by
  obtain ⟨h1, h2, h3, h4⟩ := hw
  unfold completeFetchOk
  cases hf : findVal id s.pending with
  | none => exact ⟨h1, h2, h3, h4⟩
  | some ns =>
    dsimp only
    have hidm : (id, ns) ∈ s.pending := mem_of_findVal _ _ _ hf
    have hp2 : ∀ p ∈ eraseKey s.pending id, p ∈ s.pending ∧ p.1 ≠ id :=
      fun p hpm => mem_eraseKey id p s.pending hpm
    have hpns : ∀ p ∈ eraseKey s.pending id, p.2 ≠ ns := by
      intro p hpm he
      obtain ⟨hin, hne⟩ := hp2 p hpm
      exact hne (h4 p hin (id, ns) hidm he)
    have hfld := saveToSessionStorage_fields
      { s with pending := eraseKey s.pending id } ns c
    have hwmid : WfLoader
        { saveToSessionStorage { s with pending := eraseKey s.pending id } ns c with
          spriteCache := upsertWith ns (fun _ => ⟨spriteVersion, c, none⟩)
            ⟨spriteVersion, c, none⟩
            (saveToSessionStorage { s with pending := eraseKey s.pending id } ns c).spriteCache } := by
      refine ⟨?_, ?_, ?_, ?_⟩
      · dsimp only
        rw [hfld.1]
        exact ((eraseKey_sublist id s.pending).map Prod.fst).nodup h1
      · intro p hpm
        dsimp only at hpm ⊢
        rw [hfld.1] at hpm
        rw [hfld.2.2.1]
        exact h2 p (hp2 p hpm).1
      · intro p hpm
        dsimp only at hpm ⊢
        rw [hfld.1] at hpm
        rw [hfld.2.1]
        rw [findVal_upsert_ne _ _ _ _ (hpns p hpm)]
        exact h3 p (hp2 p hpm).1
      · intro p hpm q hqm
        dsimp only at hpm hqm
        rw [hfld.1] at hpm hqm
        exact h4 p (hp2 p hpm).1 q (hp2 q hqm).1
    have hif := injectSprite_fields
      { saveToSessionStorage { s with pending := eraseKey s.pending id } ns c with
        spriteCache := upsertWith ns (fun _ => ⟨spriteVersion, c, none⟩)
          ⟨spriteVersion, c, none⟩
          (saveToSessionStorage { s with pending := eraseKey s.pending id } ns c).spriteCache }
      ns c
    exact WfLoader_transfer _ _ hif.1 hif.2.1 hif.2.2.1 hwmid

theorem Wf_completeFetchErr (s : LoaderState) (id : Nat) (hw : WfLoader s) :
    WfLoader (completeFetchErr s id) := by
  obtain ⟨h1, h2, h3, h4⟩ := hw
  unfold completeFetchErr
  cases hf : findVal id s.pending with
  | none => exact ⟨h1, h2, h3, h4⟩
  | some ns =>
    dsimp only
    have hidm : (id, ns) ∈ s.pending := mem_of_findVal _ _ _ hf
    have hp2 : ∀ p ∈ eraseKey s.pending id, p ∈ s.pending ∧ p.1 ≠ id :=
      fun p hpm => mem_eraseKey id p s.pending hpm
    have hpns : ∀ p ∈ eraseKey s.pending id, p.2 ≠ ns := by
      intro p hpm he
      obtain ⟨hin, hne⟩ := hp2 p hpm
      exact hne (h4 p hin (id, ns) hidm he)
    refine ⟨?_, ?_, ?_, ?_⟩
    · exact ((eraseKey_sublist id s.pending).map Prod.fst).nodup h1
    · intro p hpm
      exact h2 p (hp2 p hpm).1
    · intro p hpm
      dsimp only
      rw [findVal_eraseKey_ne _ _ (hpns p hpm)]
      exact h3 p (hp2 p hpm).1
    · intro p hpm q hqm
      exact h4 p (hp2 p hpm).1 q (hp2 q hqm).1

theorem loadSpriteStep_unloaded (s : LoaderState) (ns : List Char)
    (h1 : findVal ns s.spriteCache = none)
    (h2 : findVal (getCacheKey ns) s.session = none) :
    loadSpriteStep s ns = startFetch s ns := by
  unfold loadSpriteStep sessionLoadPath loadFromSessionStorage
  rw [h1]
  dsimp only
  rw [h2]

theorem loadSpriteStep_attached (s : LoaderState) (ns : List Char) (c : CacheEntry)
    (id : Nat) (h : findVal ns s.spriteCache = some c) (hpr : c.promise = some id) :
    loadSpriteStep s ns = (s, LoadResult.attached id) := by
  unfold loadSpriteStep
  rw [h]
  dsimp only
  rw [hpr]

/-- C7: two load requests for the same unloaded namespace, the second arriving
before the first completes, perform exactly one outbound fetch — the second
attaches to the in-flight operation without touching the state; moreover the
loader invariant (at most one in-flight fetch per namespace) holds in the
initial state, bounds the in-flight count in every well-formed state, and is
preserved by every request and by every fetch completion. -/
theorem claim_C7 :
    (∀ (s : LoaderState) (ns : List Char), WfLoader s → unloadedAt s ns →
      (loadSpriteStep s ns).2 = LoadResult.started s.nextId ∧
      (loadSpriteStep s ns).1.fetchLog = s.fetchLog ++ [ns] ∧
      (loadSpriteStep (loadSpriteStep s ns).1 ns).2 = LoadResult.attached s.nextId ∧
      (loadSpriteStep (loadSpriteStep s ns).1 ns).1 = (loadSpriteStep s ns).1 ∧
      pendingCount (loadSpriteStep (loadSpriteStep s ns).1 ns).1 ns = 1) ∧
    WfLoader initLoader ∧
    (∀ s : LoaderState, WfLoader s → ∀ ns, pendingCount s ns ≤ 1) ∧
    (∀ (s : LoaderState) (ns : List Char), WfLoader s → WfLoader (loadSpriteStep s ns).1) ∧
    (∀ (s : LoaderState) (id : Nat) (c : List Char), WfLoader s →
      WfLoader (completeFetchOk s id c)) ∧
    (∀ (s : LoaderState) (id : Nat), WfLoader s → WfLoader (completeFetchErr s id)) := by
  refine ⟨?_, by decide, pendingCount_le_one, Wf_loadSpriteStep,
    Wf_completeFetchOk, Wf_completeFetchErr⟩
  intro s ns hw hu
  obtain ⟨hc, hs⟩ := hu
  have hstep := loadSpriteStep_unloaded s ns hc hs
  have hcache2 : findVal ns (startFetch s ns).1.spriteCache =
      some ⟨spriteVersion, [], some s.nextId⟩ := by
    unfold startFetch
    dsimp only
    rw [findVal_upsert_self, hc]
  have hstep2 := loadSpriteStep_attached (startFetch s ns).1 ns
    ⟨spriteVersion, [], some s.nextId⟩ s.nextId hcache2 rfl
  rw [hstep, hstep2]
  refine ⟨rfl, rfl, rfl, rfl, ?_⟩
  have hnp : ∀ p ∈ s.pending, p.2 ≠ ns := no_pending_of_cache_none s ns hw hc
  unfold startFetch pendingCount
  dsimp only
  rw [List.countP_append]
  have hzero : s.pending.countP (fun p => decide (p.2 = ns)) = 0 := by
    rw [List.countP_eq_zero]
    intro p hpm
    simp only [decide_eq_true_eq]
    exact hnp p hpm
  rw [hzero]
  simp

/-- Witness for C7: the two-request scenario on a fresh loader for the default
namespace: one fetch is logged, the second request attaches. -/
theorem claim_C7_witness :
    (loadSpriteStep initLoader "default".data).2 = LoadResult.started initLoader.nextId ∧
    (loadSpriteStep initLoader "default".data).1.fetchLog =
      initLoader.fetchLog ++ ["default".data] ∧
    (loadSpriteStep (loadSpriteStep initLoader "default".data).1 "default".data).2 =
      LoadResult.attached initLoader.nextId ∧
    (loadSpriteStep (loadSpriteStep initLoader "default".data).1 "default".data).1 =
      (loadSpriteStep initLoader "default".data).1 ∧
    pendingCount (loadSpriteStep (loadSpriteStep initLoader "default".data).1
      "default".data).1 "default".data = 1 :=
  claim_C7.1 initLoader "default".data (by decide) ⟨rfl, rfl⟩

/-- C8 counterexample: a persisted entry whose version MATCHES the current
stamp but whose stored content is the empty string is not used — the loader
still issues a fetch, contradicting "an entry whose version matches is used
without any fetch". -/
theorem claim_C8_counterexample :
    (loadSpriteStep
      ⟨[], [(getCacheKey "default".data, ⟨spriteVersion, []⟩)], [], [], [], 0, []⟩
      "default".data).2 = LoadResult.started 0 ∧
    (loadSpriteStep
      ⟨[], [(getCacheKey "default".data, ⟨spriteVersion, []⟩)], [], [], [], 0, []⟩
      "default".data).1.fetchLog = ["default".data] := by
  decide

/-- C8 (amended): with no usable in-memory entry, a persisted entry whose
version differs from the current stamp is treated exactly as a miss — it is
removed, its content is never used (the DOM is untouched and the placeholder
cache entry is empty), and a fresh fetch is issued; an entry whose version
matches and whose content is non-empty is used without any fetch and
backfilled into the in-memory tier. -/
theorem claim_C8_amended :
    (∀ (s : LoaderState) (ns : List Char) (r : SessionRec),
      findVal ns s.spriteCache = none →
      findVal (getCacheKey ns) s.session = some r →
      r.version ≠ spriteVersion →
        (loadSpriteStep s ns).2 = LoadResult.started s.nextId ∧
        (loadSpriteStep s ns).1.fetchLog = s.fetchLog ++ [ns] ∧
        findVal (getCacheKey ns) (loadSpriteStep s ns).1.session = none ∧
        (loadSpriteStep s ns).1.dom = s.dom ∧
        findVal ns (loadSpriteStep s ns).1.spriteCache =
          some ⟨spriteVersion, [], some s.nextId⟩) ∧
    (∀ (s : LoaderState) (ns : List Char) (r : SessionRec),
      findVal ns s.spriteCache = none →
      findVal (getCacheKey ns) s.session = some r →
      r.version = spriteVersion → r.content ≠ [] →
        (loadSpriteStep s ns).2 = LoadResult.completed ∧
        (loadSpriteStep s ns).1.fetchLog = s.fetchLog ∧
        findVal ns (loadSpriteStep s ns).1.spriteCache =
          some ⟨spriteVersion, r.content, none⟩) := by
  constructor
  · intro s ns r hc hs hv
    have hstep : loadSpriteStep s ns =
        startFetch { s with
          session := eraseKey s.session (getCacheKey ns)
          trackedKeys := eraseElem s.trackedKeys (getCacheKey ns) } ns := by
      unfold loadSpriteStep sessionLoadPath loadFromSessionStorage
      rw [hc]
      dsimp only
      rw [hs]
      dsimp only
      rw [if_pos hv]
    rw [hstep]
    unfold startFetch
    dsimp only
    refine ⟨rfl, rfl, ?_, rfl, ?_⟩
    · exact findVal_eraseKey_self _ s.session
    · rw [findVal_upsert_self]
      rw [hc]
  · intro s ns r hc hs hv hne
    have hstep : loadSpriteStep s ns =
        (injectSprite
          { s with
            trackedKeys := addKeyOnce s.trackedKeys (getCacheKey ns)
            spriteCache := upsertWith ns (fun _ => ⟨spriteVersion, r.content, none⟩)
              ⟨spriteVersion, r.content, none⟩ s.spriteCache } ns r.content,
         LoadResult.completed) := by
      unfold loadSpriteStep sessionLoadPath loadFromSessionStorage
      rw [hc]
      dsimp only
      rw [hs]
      dsimp only
      rw [if_neg (by simp [hv])]
      dsimp only
      rw [if_neg (by simp [List.isEmpty_iff, hne])]
    rw [hstep]
    have hif := injectSprite_fields
      { s with
        trackedKeys := addKeyOnce s.trackedKeys (getCacheKey ns)
        spriteCache := upsertWith ns (fun _ => ⟨spriteVersion, r.content, none⟩)
          ⟨spriteVersion, r.content, none⟩ s.spriteCache } ns r.content
    refine ⟨rfl, hif.2.2.2.1, ?_⟩
    rw [hif.2.1]
    dsimp only
    rw [findVal_upsert_self, hc]

/-- Witness for C8 (amended): a persisted entry stamped `0.9.9` under the
current version `1.0.0` is evicted and a fresh fetch starts. -/
theorem claim_C8_amended_witness :
    (loadSpriteStep ⟨[], [(getCacheKey "default".data,
        ⟨"0.9.9".data, "<svg></svg>".data⟩)], [], [], [], 0, []⟩ "default".data).2 =
      LoadResult.started (LoaderState.nextId ⟨[], [(getCacheKey "default".data,
        ⟨"0.9.9".data, "<svg></svg>".data⟩)], [], [], [], 0, []⟩) ∧
    (loadSpriteStep ⟨[], [(getCacheKey "default".data,
        ⟨"0.9.9".data, "<svg></svg>".data⟩)], [], [], [], 0, []⟩ "default".data).1.fetchLog =
      LoaderState.fetchLog ⟨[], [(getCacheKey "default".data,
        ⟨"0.9.9".data, "<svg></svg>".data⟩)], [], [], [], 0, []⟩ ++ ["default".data] ∧
    findVal (getCacheKey "default".data)
      (loadSpriteStep ⟨[], [(getCacheKey "default".data,
        ⟨"0.9.9".data, "<svg></svg>".data⟩)], [], [], [], 0, []⟩ "default".data).1.session =
      none ∧
    (loadSpriteStep ⟨[], [(getCacheKey "default".data,
        ⟨"0.9.9".data, "<svg></svg>".data⟩)], [], [], [], 0, []⟩ "default".data).1.dom =
      LoaderState.dom ⟨[], [(getCacheKey "default".data,
        ⟨"0.9.9".data, "<svg></svg>".data⟩)], [], [], [], 0, []⟩ ∧
    findVal "default".data
      (loadSpriteStep ⟨[], [(getCacheKey "default".data,
        ⟨"0.9.9".data, "<svg></svg>".data⟩)], [], [], [], 0, []⟩ "default".data).1.spriteCache =
      some ⟨spriteVersion, [], some (LoaderState.nextId ⟨[], [(getCacheKey "default".data,
        ⟨"0.9.9".data, "<svg></svg>".data⟩)], [], [], [], 0, []⟩)⟩ :=
  claim_C8_amended.1 _ "default".data ⟨"0.9.9".data, "<svg></svg>".data⟩ rfl rfl (by decide)

/-- C3 counterexample: a fetched payload that fails the SVG structural check
is never injected into the DOM, but — contrary to the claim — it IS recorded
as loaded in the in-memory cache, and the next request for the namespace
completes from that cache without any fresh fetch. -/
theorem claim_C3_counterexample :
    (completeFetchOk (loadSpriteStep initLoader "default".data).1 0 "oops".data).dom = [] ∧
    findVal "default".data
      (completeFetchOk (loadSpriteStep initLoader "default".data).1 0
        "oops".data).spriteCache = some ⟨spriteVersion, "oops".data, none⟩ ∧
    (loadSpriteStep
      (completeFetchOk (loadSpriteStep initLoader "default".data).1 0 "oops".data)
      "default".data).2 = LoadResult.completed ∧
    (loadSpriteStep
      (completeFetchOk (loadSpriteStep initLoader "default".data).1 0 "oops".data)
      "default".data).1.fetchLog = ["default".data] := by
  decide

/-- C3 (amended): content failing the structural check is never inserted into
the page (`injectSprite` is the identity); however, a successful fetch
delivering invalid content still records the namespace as loaded in both
cache tiers, and a later request for a namespace whose cached content is
non-empty completes without a fresh fetch — only a fetch FAILURE deletes the
cache entry and leaves the namespace retryable. -/
theorem claim_C3_amended :
    (∀ (s : LoaderState) (ns c : List Char), isValidSvgContent c = false →
      injectSprite s ns c = s) ∧
    (∀ (s : LoaderState) (id : Nat) (ns c : List Char),
      findVal id s.pending = some ns → isValidSvgContent c = false →
        (completeFetchOk s id c).dom = s.dom ∧
        findVal ns (completeFetchOk s id c).spriteCache = some ⟨spriteVersion, c, none⟩ ∧
        findVal (getCacheKey ns) (completeFetchOk s id c).session =
          some ⟨spriteVersion, c⟩) ∧
    (∀ (s : LoaderState) (ns : List Char) (c : CacheEntry),
      findVal ns s.spriteCache = some c → c.promise = none →
      c.version = spriteVersion → c.content ≠ [] →
        (loadSpriteStep s ns).2 = LoadResult.completed ∧
        (loadSpriteStep s ns).1.fetchLog = s.fetchLog) ∧
    (∀ (s : LoaderState) (id : Nat) (ns : List Char), findVal id s.pending = some ns →
      findVal ns (completeFetchErr s id).spriteCache = none) := by
  refine ⟨injectSprite_invalid, ?_, ?_, ?_⟩
  · intro s id ns c hf hinv
    unfold completeFetchOk
    rw [hf]
    dsimp only
    rw [injectSprite_invalid _ _ _ hinv]
    refine ⟨rfl, ?_, ?_⟩
    · dsimp only
      rw [findVal_upsert_self]
      cases findVal ns (saveToSessionStorage
        { s with pending := eraseKey s.pending id } ns c).spriteCache <;> rfl
    · show findVal (getCacheKey ns) (upsertWith (getCacheKey ns)
        (fun _ => ⟨spriteVersion, c⟩) ⟨spriteVersion, c⟩ s.session) = some ⟨spriteVersion, c⟩
      rw [findVal_upsert_self]
      cases findVal (getCacheKey ns) s.session <;> rfl
  · intro s ns c hc hpr hv hne
    unfold loadSpriteStep
    rw [hc]
    dsimp only
    rw [hpr]
    dsimp only
    rw [if_pos ⟨hv, by simp [List.isEmpty_iff, hne]⟩]
    have hif := injectSprite_fields s ns c.content
    exact ⟨rfl, hif.2.2.2.1⟩
  · intro s id ns hf
    unfold completeFetchErr
    rw [hf]
    dsimp only
    exact findVal_eraseKey_self ns s.spriteCache

/-- Witness for C3 (amended): delivering the invalid payload `oops` for the
pending fetch of the default namespace leaves the DOM untouched but caches
the payload in both tiers. -/
theorem claim_C3_amended_witness :
    (completeFetchOk (loadSpriteStep initLoader "default".data).1 0 "oops".data).dom =
      (loadSpriteStep initLoader "default".data).1.dom ∧
    findVal "default".data
      (completeFetchOk (loadSpriteStep initLoader "default".data).1 0
        "oops".data).spriteCache = some ⟨spriteVersion, "oops".data, none⟩ ∧
    findVal (getCacheKey "default".data)
      (completeFetchOk (loadSpriteStep initLoader "default".data).1 0
        "oops".data).session = some ⟨spriteVersion, "oops".data⟩ :=
  claim_C3_amended.2.1 (loadSpriteStep initLoader "default".data).1 0 "default".data
    "oops".data (by decide) (by decide)
